import Mathlib

/-!
Verification development for the sordahe steno translation engine.

The Rust sources are embedded shallowly:
* Rust `String` / `&str` values are modelled as `List Char` (`Str`); explicit
  UTF-8 byte arithmetic is done with `Char.utf8Size`.
* The `Keys` bit-set (a `u32` with 23 used bits) is modelled as a `Nat`
  with the same bitwise operations; no overflow is possible because all
  values stay below 2^23.
* Fallible operations (Rust panics: assertion failures, `String::truncate`
  off a char boundary, `usize` subtraction overflow) are modelled with an
  error monad `Except EngErr`; the Rust `SpecialAction::Quit` result is the
  `quit` error, which carries the engine state at the throw point because
  the Rust engine retains its mutated state when propagating `Quit`.
* The recursion `run_keys -> run_action -> undo_stroke -> run_keys` is
  broken with an explicit fuel parameter; fuel is consumed only when the
  recursion actually happens.
-/

set_option maxHeartbeats 2000000
set_option maxRecDepth 4000

namespace Sordahe

/-- Rust strings are modelled as lists of unicode scalar values. -/
abbrev Str := List Char

/-- Coerce a Lean string literal into the model. -/
def sOf (s : String) : Str := s.toList

/-- Rust `str::len`: the UTF-8 byte length. -/
def utf8Len (s : Str) : Nat := (s.map Char.utf8Size).sum

/-- Rust `String::truncate self n` keeps the first `n` bytes and panics when
`n` is not on a char boundary (`none` models the panic).  `n` is always at
most the byte length at the call sites modelled here. -/
def takeBytes : Str → Nat → Option Str
  | _, 0 => some []
  | [], _ + 1 => none
  | c :: cs, n + 1 =>
    if c.utf8Size ≤ n + 1 then (takeBytes cs (n + 1 - c.utf8Size)).map (c :: ·) else none

/-- `chars_or_bytes.rs`: a pair of char count and byte count. -/
structure CharsOrBytes where
  chars : Nat
  bytes : Nat
deriving DecidableEq, Repr

/-- `CharsOrBytes::for_str`. -/
def CharsOrBytes.for_str (s : Str) : CharsOrBytes := ⟨s.length, utf8Len s⟩

/-- `impl Add for CharsOrBytes`. -/
def CharsOrBytes.add (a b : CharsOrBytes) : CharsOrBytes := ⟨a.chars + b.chars, a.bytes + b.bytes⟩

/-- `impl Sub for CharsOrBytes`: both `usize` subtractions panic on
underflow (`none` models the panic). -/
def CharsOrBytes.sub? (a b : CharsOrBytes) : Option CharsOrBytes :=
  if b.chars ≤ a.chars ∧ b.bytes ≤ a.bytes then some ⟨a.chars - b.chars, a.bytes - b.bytes⟩
  else none

/-- `keys.rs`: the 23 steno key positions, in steno (declaration) order. -/
inductive Key
  | NumberBar | S | T | K | P | W | H | R | A | O | Star | E | U
  | F | R2 | P2 | B | L | G | T2 | S2 | D | Z
deriving DecidableEq, Repr, Fintype

/-- The discriminant of a key: its bit position, following declaration order. -/
def Key.index : Key → Nat
  | .NumberBar => 0
  | .S => 1
  | .T => 2
  | .K => 3
  | .P => 4
  | .W => 5
  | .H => 6
  | .R => 7
  | .A => 8
  | .O => 9
  | .Star => 10
  | .E => 11
  | .U => 12
  | .F => 13
  | .R2 => 14
  | .P2 => 15
  | .B => 16
  | .L => 17
  | .G => 18
  | .T2 => 19
  | .S2 => 20
  | .D => 21
  | .Z => 22

/-- `Key::ALL`, in steno order. -/
def Key.ALL : List Key :=
  [.NumberBar, .S, .T, .K, .P, .W, .H, .R, .A, .O, .Star, .E, .U,
   .F, .R2, .P2, .B, .L, .G, .T2, .S2, .D, .Z]

/-- `Keys`: the `u32` bit-set over the 23 key positions, modelled as `Nat`. -/
abbrev Keys := Nat

/-- `Keys::single`. -/
def Keys.single (k : Key) : Keys := 2 ^ k.index

/-- `Keys::all`: the mask of all 23 positions. -/
def Keys.allMask : Keys := 2 ^ 23 - 1

/-- `Keys::contains`. -/
def Keys.holds (ks : Keys) (k : Key) : Bool := ks.testBit k.index

/-- `impl Not for Keys`: flip and mask to the used bits.  On a `u32` the
Rust code computes `!x & all`; for bit positions below 23 this agrees with
`(x xor all) and all`, and all higher positions are cleared by the mask in
both readings. -/
def Keys.flip (a : Keys) : Keys := (a ^^^ Keys.allMask) &&& Keys.allMask

/-- `Keys::remove`: remove `sub` if it is wholly contained, returning the new
set and whether it was contained. -/
def Keys.remove (ks sub : Keys) : Keys × Bool :=
  if ks &&& sub = sub then (ks &&& Keys.flip sub, true) else (ks, false)

/-- `Key::to_char`. -/
def Key.toChar : Key → Char
  | .NumberBar => '#'
  | .S | .S2 => 'S'
  | .T | .T2 => 'T'
  | .K => 'K'
  | .P | .P2 => 'P'
  | .W => 'W'
  | .H => 'H'
  | .R | .R2 => 'R'
  | .A => 'A'
  | .O => 'O'
  | .Star => '*'
  | .E => 'E'
  | .U => 'U'
  | .F => 'F'
  | .B => 'B'
  | .L => 'L'
  | .G => 'G'
  | .D => 'D'
  | .Z => 'Z'

/-- `Key::other`: the same-letter key on the other hand. -/
def Key.other : Key → Option Key
  | .R => some .R2
  | .R2 => some .R
  | .P => some .P2
  | .P2 => some .P
  | .S => some .S2
  | .S2 => some .S
  | .T => some .T2
  | .T2 => some .T
  | _ => none

/-- `Key::other_before`. -/
def Key.otherBefore (k : Key) : Option Key :=
  k.other.filter (fun o => o.index < k.index)

/-- The members of a key set, in steno order (the order `IntoIterator for
Keys` yields, since it scans bits from least significant upward). -/
def Keys.members (ks : Keys) : List Key := Key.ALL.filter (fun k => ks.holds k)

/-- The dash condition inside `impl Display for Keys`: the key has an
earlier twin and no member of the set lies in the half-open index range
from the twin up to the key. -/
def needsDash (ks : Keys) (k : Key) : Bool :=
  match k.otherBefore with
  | some first => !(ks.members.any (fun j => first.index ≤ j.index && j.index < k.index))
  | none => false

/-- `impl Display for Keys` (the non-alternate branch): one character per
member, with a dash emitted before a member whenever `needsDash` holds. -/
def keysToStr (ks : Keys) : Str :=
  (ks.members.map (fun k => (if needsDash ks k then ['-'] else []) ++ [k.toChar])).flatten

/-- One character per key, with a single dash inserted before the first
key of the list satisfying `p`, when one exists. -/
def insertDash (p : Key → Bool) : List Key → Str
  | [] => []
  | k :: rest =>
    if p k then '-' :: k.toChar :: rest.map Key.toChar
    else k.toChar :: insertDash p rest

/-- Formatting as the amended claim C7 states it: one character per member
in steno order, with at most one dash, placed immediately before the first
member that is the right-hand key of a letter pair whose index range back to
its left-hand twin contains no member. -/
def keysToStrSpec (ks : Keys) : Str := insertDash (fun k => needsDash ks k) ks.members

/-- `keys.rs` `ParseError`. -/
inductive KeysParseErr
  | trailingDash
  | duplicate (ks : Keys)
  | unrecognized (c : Char)
deriving DecidableEq, Repr

/-- The `do_double!` macro of the chord parser: pick the right-hand twin
after a dash or when the accumulated bits already reach the left twin's
bit value. -/
def doDouble (prevDash : Bool) (ret : Keys) (first second : Key) : Keys :=
  if prevDash || decide (Keys.single first ≤ ret) then Keys.single second else Keys.single first

/-- The per-character table of the chord parser (`FromStr for Keys`),
returning `none` for an unrecognized character. -/
def charKeys (prevDash : Bool) (ret : Keys) : Char → Option Keys
  | 'S' => some (doDouble prevDash ret .S .S2)
  | 'T' => some (doDouble prevDash ret .T .T2)
  | 'P' => some (doDouble prevDash ret .P .P2)
  | 'H' => some (Keys.single .H)
  | '*' => some (Keys.single .Star)
  | 'F' => some (Keys.single .F)
  | 'L' => some (Keys.single .L)
  | 'D' => some (Keys.single .D)
  | 'K' => some (Keys.single .K)
  | 'W' => some (Keys.single .W)
  | 'R' => some (doDouble prevDash ret .R .R2)
  | 'B' => some (Keys.single .B)
  | 'G' => some (Keys.single .G)
  | 'Z' => some (Keys.single .Z)
  | 'A' => some (Keys.single .A)
  | 'O' => some (Keys.single .O)
  | 'E' => some (Keys.single .E)
  | 'U' => some (Keys.single .U)
  | '1' => some (Keys.single .NumberBar ||| Keys.single .S)
  | '2' => some (Keys.single .NumberBar ||| Keys.single .T)
  | '3' => some (Keys.single .NumberBar ||| Keys.single .P)
  | '4' => some (Keys.single .NumberBar ||| Keys.single .H)
  | '5' => some (Keys.single .NumberBar ||| Keys.single .A)
  | '0' => some (Keys.single .NumberBar ||| Keys.single .O)
  | '6' => some (Keys.single .NumberBar ||| Keys.single .F)
  | '7' => some (Keys.single .NumberBar ||| Keys.single .P2)
  | '8' => some (Keys.single .NumberBar ||| Keys.single .L)
  | '9' => some (Keys.single .NumberBar ||| Keys.single .T2)
  | '#' => some (Keys.single .NumberBar)
  | _ => none

/-- The character loop of `FromStr for Keys`. -/
def parsePartGo : List Char → Bool → Keys → Except KeysParseErr Keys
  | [], prevDash, ret => if prevDash then .error .trailingDash else .ok ret
  | c :: cs, prevDash, ret =>
    if c = '-' then parsePartGo cs true ret
    else
      match charKeys prevDash ret c with
      | none => .error (.unrecognized c)
      | some new =>
        let overlap := ret &&& new &&& Keys.flip (Keys.single .NumberBar)
        if overlap ≠ 0 then .error (.duplicate overlap)
        else parsePartGo cs false (ret ||| new)

/-- `FromStr for Keys` / `strokes.rs` `parse_part`. -/
def parse_part (s : Str) : Except KeysParseErr Keys := parsePartGo s false 0

/-- `dict/entry.rs` `PloverCommand`.  The variant set is the one the current
engine (`steno/run_action.rs`) matches on; the snapshot of `dict/entry.rs`
under `src` is a stale revision that still lacks `Reset`. -/
inductive PloverCommand
  | backspace
  | quit
  | reset
deriving DecidableEq, Repr

/-- Modelled from the spec: the Plover-command name parser of the entry
grammar, mapping the names after the `PLOVER:` marker to commands.  The
current parser is missing from `src` — the snapshot of `dict/entry.rs`
predates the `Reset` variant that `steno/run_action.rs` executes — so the
name set follows the spec's list Backspace | Quit | Reset, with lower-case
names as in the two names the stale snapshot does contain. -/
def parsePloverCommand (s : Str) : Option PloverCommand :=
  if s = sOf "backspace" then some .backspace
  else if s = sOf "quit" then some .quit
  else if s = sOf "reset" then some .reset
  else none

/-- `dict/entry.rs` `SpecialPunct`. -/
inductive SpecialPunct
  | period
  | comma
  | colon
  | semi
  | bang
  | question
deriving DecidableEq, Repr

/-- `SpecialPunct::as_str`. -/
def SpecialPunct.as_str : SpecialPunct → Str
  | .period => ['.']
  | .comma => [',']
  | .colon => [':']
  | .semi => [';']
  | .bang => ['!']
  | .question => ['?']

/-- `SpecialPunct::is_sentence_end`. -/
def SpecialPunct.is_sentence_end : SpecialPunct → Bool
  | .period | .bang | .question => true
  | .colon | .comma | .semi => false

/-- `dict/entry.rs` `Part`, with the payload-carrying `Suffix` and `Glue`
variants the current engine (`steno/run_action.rs`, `steno/find_action.rs`)
consumes; the stale `dict/entry.rs` snapshot has a payload-free `Glue` and
no `Suffix`. -/
inductive EntryPart
  | verbatim (t : Str)
  | suffix (t : Str)
  | glue (t : Str)
  | specialPunct (p : SpecialPunct)
  | setCaps (b : Bool)
  | setSpace (b : Bool)
  | carryToNext
  | plover (c : PloverCommand)
deriving DecidableEq, Repr

/-- `dict/entry.rs` `Entry`: a shared sequence of parts. -/
abbrev Entry := List EntryPart

/-- Rust `str::strip_prefix`. -/
def stripPre (s pre : Str) : Option Str :=
  if pre.isPrefixOf s then some (s.drop pre.length) else none

/-- Rust `str::strip_suffix`. -/
def stripSuf (s suf : Str) : Option Str :=
  if suf.reverse.isPrefixOf s.reverse then some (s.take (s.length - suf.length)) else none

/-- `steno/orthography.rs` `RULES`: ordered triples of previous-word tail,
suffix head, and replacement. -/
def RULES : List (Str × Str × Str) :=
  [ (sOf "ic", sOf "ly", sOf "ically"),
    (sOf "te", sOf "ry", sOf "tory"),
    (sOf "t", sOf "cy", sOf "cy"),
    (sOf "te", sOf "cy", sOf "cy"),
    (sOf "sh", sOf "s", sOf "shes"),
    (sOf "s", sOf "s", sOf "ses"),
    (sOf "each", sOf "s", sOf "eaches"),
    (sOf "eech", sOf "s", sOf "eeches"),
    (sOf "y", sOf "s", sOf "ies"),
    (sOf "y", sOf "ed", sOf "ied"),
    (sOf "ie", sOf "ing", sOf "ying"),
    (sOf "y", sOf "ist", sOf "ist"),
    (sOf "y", sOf "ful", sOf "iful"),
    (sOf "te", sOf "en", sOf "tten"),
    (sOf "e", sOf "en", sOf "en"),
    (sOf "ee", sOf "e", sOf "ee"),
    (sOf "e", sOf "ing", sOf "ing"),
    (sOf "at", sOf "e", sOf "atte"),
    (sOf "ag", sOf "e", sOf "agge"),
    (sOf "ab", sOf "e", sOf "abbe"),
    (sOf "at", sOf "i", sOf "atti"),
    (sOf "ag", sOf "i", sOf "aggi"),
    (sOf "ab", sOf "i", sOf "abbi"),
    (sOf "an", sOf "i", sOf "anni"),
    (sOf "et", sOf "e", sOf "ette"),
    (sOf "eg", sOf "e", sOf "egge"),
    (sOf "eb", sOf "e", sOf "ebbe"),
    (sOf "et", sOf "i", sOf "etti"),
    (sOf "eg", sOf "i", sOf "eggi"),
    (sOf "eb", sOf "i", sOf "ebbi"),
    (sOf "en", sOf "i", sOf "enni"),
    (sOf "it", sOf "e", sOf "itte"),
    (sOf "ig", sOf "e", sOf "igge"),
    (sOf "ib", sOf "e", sOf "ibbe"),
    (sOf "it", sOf "i", sOf "itti"),
    (sOf "ig", sOf "i", sOf "iggi"),
    (sOf "ib", sOf "i", sOf "ibbi"),
    (sOf "in", sOf "i", sOf "inni"),
    (sOf "ot", sOf "e", sOf "otte"),
    (sOf "og", sOf "e", sOf "ogge"),
    (sOf "ob", sOf "e", sOf "obbe"),
    (sOf "ot", sOf "i", sOf "otti"),
    (sOf "og", sOf "i", sOf "oggi"),
    (sOf "ob", sOf "i", sOf "obbi"),
    (sOf "on", sOf "i", sOf "onni"),
    (sOf "ut", sOf "e", sOf "utte"),
    (sOf "ug", sOf "e", sOf "ugge"),
    (sOf "ub", sOf "e", sOf "ubbe"),
    (sOf "ut", sOf "i", sOf "utti"),
    (sOf "ug", sOf "i", sOf "uggi"),
    (sOf "ub", sOf "i", sOf "ubbi"),
    (sOf "un", sOf "i", sOf "unni"),
    (sOf "e", sOf "ed", sOf "ed") ]

/-- The scan of `apply_orthography_rules`: first rule whose tail matches the
previous word and whose head matches the suffix wins; a tail match without a
head match continues the scan. -/
def findRule : List (Str × Str × Str) → Str → Str → Option Str
  | [], _, _ => none
  | (fs, sp, repl) :: rest, first, second =>
    match stripSuf first fs with
    | some f =>
      match stripPre second sp with
      | some s => some (f ++ repl ++ s)
      | none => findRule rest first second
    | none => findRule rest first second

/-- `steno/orthography.rs` `apply_orthography_rules`. -/
def apply_orthography_rules (first second : Str) : Option Str := findRule RULES first second

/-- `steno/find_action.rs` `NUMBERS`: key-to-digit pairs in collection order. -/
def NUMBERS : List (Key × Char) :=
  [(.S, '1'), (.T, '2'), (.P, '3'), (.H, '4'), (.A, '5'),
   (.O, '0'), (.F, '6'), (.P2, '7'), (.L, '8'), (.T2, '9')]

/-- The digit-collecting loop of `make_numbers`: fold the key/digit pairs,
removing each present key and pushing its digit. -/
def numbersFold (l : List (Key × Char)) (st : Keys × Str) : Keys × Str :=
  l.foldl
    (fun st kc =>
      let r := st.1.remove (Keys.single kc.1)
      (r.1, if r.2 then st.2 ++ [kc.2] else st.2))
    st

/-- `steno/find_action.rs` `make_numbers`, including the early `None` when
no digit key is present. -/
def make_numbers (keys0 : Keys) : Option Str :=
  let keys := (keys0.remove (Keys.single .NumberBar)).1
  let p := numbersFold NUMBERS (keys, [])
  if p.2.isEmpty then none
  else
    let r1 := p.1.remove (Keys.single .E ||| Keys.single .U)
    let ret1 := if r1.2 then p.2.reverse else p.2
    let r2 := r1.1.remove (Keys.single .D ||| Keys.single .Z)
    let q :=
      if r2.2 then (r2.1, '$' :: (ret1 ++ ['0', '0']))
      else
        let r3 := r2.1.remove (Keys.single .D)
        let ret2 := if r3.2 then ret1 ++ ret1 else ret1
        let r4 := r3.1.remove (Keys.single .Z)
        (r4.1, if r4.2 then ret2 ++ ['0', '0'] else ret2)
    let r5 := q.1.remove (Keys.single .K)
    let p6 := if r5.2 then (r5.1, true) else r5.1.remove (Keys.single .B ||| Keys.single .G)
    let ret3 := if p6.2 then q.2 ++ [':', '0', '0'] else q.2
    if p6.1 ≠ 0 then none else some ret3

/-- The mask of the ten digit keys. -/
def digitMask : Keys := NUMBERS.foldl (fun m kc => m ||| Keys.single kc.1) 0

/-- Number chords as claim C4 words them: collect the digits of present keys
in the fixed order S, T, P, H, A, O, F, P2, L, T2 mapped to
1, 2, 3, 4, 5, 0, 6, 7, 8, 9; reverse when E and U are both present; a
dollar prefix and appended double zero when D and Z are both present, else
duplicate the digits on D alone and append double zero on Z alone; append a
colon-double-zero on K, or on B and G together (B and G are not consumed
when K is present); fail when any key of the chord is left unaccounted for.
All conditions are read off the chord itself. -/
def makeNumbersSpec (keys0 : Keys) : Option Str :=
  let digits := NUMBERS.filterMap (fun kc => if keys0.holds kc.1 then some kc.2 else none)
  if digits.isEmpty then none
  else
    let k1 := (keys0 &&& Keys.flip (Keys.single .NumberBar)) &&& Keys.flip digitMask
    let hasEU := keys0.holds .E && keys0.holds .U
    let k2 := if hasEU then k1 &&& Keys.flip (Keys.single .E ||| Keys.single .U) else k1
    let ds1 := if hasEU then digits.reverse else digits
    let hasDZ := keys0.holds .D && keys0.holds .Z
    let k3 :=
      if hasDZ then k2 &&& Keys.flip (Keys.single .D ||| Keys.single .Z)
      else
        let k3a := if keys0.holds .D then k2 &&& Keys.flip (Keys.single .D) else k2
        if keys0.holds .Z then k3a &&& Keys.flip (Keys.single .Z) else k3a
    let ds2 :=
      if hasDZ then '$' :: (ds1 ++ ['0', '0'])
      else
        let dup := if keys0.holds .D then ds1 ++ ds1 else ds1
        if keys0.holds .Z then dup ++ ['0', '0'] else dup
    let hasK := keys0.holds .K
    let hasBG := keys0.holds .B && keys0.holds .G
    let k4 :=
      if hasK then k3 &&& Keys.flip (Keys.single .K)
      else if hasBG then k3 &&& Keys.flip (Keys.single .B ||| Keys.single .G) else k3
    let ds3 := if hasK || hasBG then ds2 ++ [':', '0', '0'] else ds2
    if k4 ≠ 0 then none else some ds3

/-- Rust `u8::is_ascii_digit`, at the char level: a string all of whose
bytes are ASCII digits is exactly a string all of whose chars are. -/
def isAsciiDigit (c : Char) : Bool := '0' ≤ c && c ≤ '9'

/-- `steno/mod.rs` `InputState`. -/
structure InputState where
  caps : Bool
  space : Bool
  carry_to_next : Bool
  glue : Bool
deriving DecidableEq, Repr

/-- `InputState::INITIAL`. -/
def InputState.INITIAL : InputState :=
  { caps := true, space := false, carry_to_next := false, glue := false }

/-- `steno/mod.rs` `InputEvent`, with the `replaced_previous` field the
current `run_action.rs` records and `delete_full_entry` consumes. -/
structure InputEvent where
  strokes : List Keys
  text : Str
  state_before : InputState
  replaced_previous : Bool
deriving DecidableEq, Repr

/-- `steno/output.rs` `Output`. -/
structure Output where
  delete_words : Nat
  delete : CharsOrBytes
  append : Str
deriving DecidableEq, Repr

/-- `Output::default()`. -/
def Output.empty : Output := ⟨0, ⟨0, 0⟩, []⟩

/-- `steno/mod.rs` `BACKLOG_DEPTH`. -/
def BACKLOG_DEPTH : Nat := 1000

/-- `bounded_queue.rs` `BoundedQueue::push`: evict the front element when
the queue already holds `bound` elements, then push at the back.  The queue
contents are modelled as a list with the oldest element first. -/
def boundedPush {α : Type} (bound : Nat) (q : List α) (x : α) : List α :=
  if q.length = bound then q.drop 1 ++ [x] else q ++ [x]

/-- `steno/mod.rs` `Steno`: the engine state (the dictionary and word list
are passed separately as a `Cfg`). -/
structure Steno where
  state : InputState
  backlog : List InputEvent
  output_in_progress : Output
  backlog_entry_in_progress : Str
deriving DecidableEq, Repr

/-- The state `Steno::new` builds. -/
def Steno.initial : Steno :=
  { state := InputState.INITIAL, backlog := [], output_in_progress := Output.empty,
    backlog_entry_in_progress := [] }

/-- The engine's read-only collaborators: the `Dict` and `WordList` traits. -/
structure Cfg where
  get : List Keys → Option Entry
  max_strokes : Nat
  word_list : Str → Bool

/-- `steno/mod.rs` `Action`. -/
structure Action where
  entry : Entry
  strokes : List Keys
  removed_suffix : Option Entry
  delete_before : Nat
deriving DecidableEq, Repr

/-- `make_simple_action`. -/
def make_simple_action (entry : Entry) (keys : Keys) : Action :=
  { entry := entry, strokes := [keys], removed_suffix := none, delete_before := 0 }

/-- `make_text_action`. -/
def make_text_action (text : Str) (keys : Keys) : Action :=
  make_simple_action [.verbatim text] keys

/-- `make_fallback_action`. -/
def make_fallback_action (keys : Keys) : Action :=
  make_text_action (keysToStr keys) keys

/-- `steno/find_action.rs` `split_suffix`. -/
def split_suffix (keys : Keys) : Option (Keys × Keys) :=
  let suffixKeys := Keys.single .G ||| Keys.single .S2 ||| Keys.single .D ||| Keys.single .Z
  let suffix := keys &&& suffixKeys
  if suffix ≠ 0 then some (keys &&& Keys.flip suffixKeys, suffix) else none

/-- `BoundedQueue::last_n`: the at-most-`n` newest elements. -/
def lastN {α : Type} (n : Nat) (l : List α) : List α := l.drop (l.length - n)

/-- The suffix-split lookup performed at each skip level of `find_action`:
swap the final stroke for the chord without its suffix keys and look the
slice up again. -/
def trySplitAt (get : List Keys → Option Entry) (split : Option (Keys × Entry))
    (strokes : List Keys) : Option (Entry × Entry) :=
  match split with
  | some (ws, sfxEntry) => (get (strokes.dropLast ++ [ws])).map (fun e => (e, sfxEntry))
  | none => none

/-- The skip loop of `find_action`: at each level, look up the remaining
stroke slice, then the slice with its last stroke swapped for the suffixless
chord, then drop the oldest remaining event's strokes and recurse; the final
iteration (the `None` element) sees the bare current chord, and exhaustion
falls back to a verbatim chord spelling. -/
def findLoop (get : List Keys → Option Entry) (split : Option (Keys × Entry)) (thisKeys : Keys) :
    List InputEvent → List Keys → Action
  | events, strokes =>
    match get strokes with
    | some entry =>
      { entry := entry, strokes := strokes, removed_suffix := none,
        delete_before := events.length }
    | none =>
      match trySplitAt get split strokes with
      | some (entry, sfxEntry) =>
        { entry := entry, strokes := strokes, removed_suffix := some sfxEntry,
          delete_before := events.length }
      | none =>
        match events with
        | [] => make_fallback_action thisKeys
        | e :: rest => findLoop get split thisKeys rest (strokes.drop e.strokes.length)

/-- The dictionary-lookup path of `find_action` (everything after the number
branch): the code passes the `max_strokes` newest backlog events into the
skip loop. -/
def find_via_dict (cfg : Cfg) (backlog : List InputEvent) (thisKeys : Keys) : Action :=
  let split := (split_suffix thisKeys).bind (fun p => (cfg.get [p.2]).map (fun e => (p.1, e)))
  let events := lastN cfg.max_strokes backlog
  let allStrokes := (events.map (fun e => e.strokes)).flatten ++ [thisKeys]
  findLoop cfg.get split thisKeys events allStrokes

/-- `steno/find_action.rs` `find_action`. -/
def find_action (cfg : Cfg) (backlog : List InputEvent) (thisKeys : Keys) : Action :=
  if thisKeys.holds .NumberBar then
    match make_numbers thisKeys with
    | some text =>
      make_simple_action
        [if text.all isAsciiDigit then .glue text else .verbatim text] thisKeys
    | none => find_via_dict cfg backlog thisKeys
  else find_via_dict cfg backlog thisKeys

/-- The lookup path as claim C1 words it: only the `max_strokes − 1` newest
backlog events are considered. -/
def find_via_dict_spec (cfg : Cfg) (backlog : List InputEvent) (thisKeys : Keys) : Action :=
  let split := (split_suffix thisKeys).bind (fun p => (cfg.get [p.2]).map (fun e => (p.1, e)))
  let events := lastN (cfg.max_strokes - 1) backlog
  let allStrokes := (events.map (fun e => e.strokes)).flatten ++ [thisKeys]
  findLoop cfg.get split thisKeys events allStrokes

/-- `find_action` as claim C1 words it, with the lookup path over at most
`max_strokes − 1` backlog events. -/
def find_action_spec (cfg : Cfg) (backlog : List InputEvent) (thisKeys : Keys) : Action :=
  if thisKeys.holds .NumberBar then
    match make_numbers thisKeys with
    | some text =>
      make_simple_action
        [if text.all isAsciiDigit then .glue text else .verbatim text] thisKeys
    | none => find_via_dict_spec cfg backlog thisKeys
  else find_via_dict_spec cfg backlog thisKeys

/-- The ways a run can stop early: the distinguished `Quit` signal (which,
like the Rust original, leaves the engine state as mutated so far — carried
on the error), the three kinds of Rust panics the engine can hit, and fuel
exhaustion of the modelled `undo_stroke` recursion. -/
inductive EngErr
  | quit (st : Steno)
  | assertFail
  | truncFail
  | underflowFail
  | fuelOut
deriving DecidableEq, Repr

/-- Results of fallible engine operations. -/
abbrev Res (α : Type) := Except EngErr α

/-- `Output::delete`: consume from the tail of the append buffer, spilling
any overflow into the delete counters.  `truncFail` models the
`String::truncate` char-boundary panic and `underflowFail` the `usize`
subtraction overflow in `amount - for_str(append)`. -/
def Output.deleteOp (o : Output) (amount : CharsOrBytes) : Res Output :=
  if amount.bytes ≤ utf8Len o.append then
    match takeBytes o.append (utf8Len o.append - amount.bytes) with
    | some s => .ok { o with append := s }
    | none => .error .truncFail
  else
    match amount.sub? (CharsOrBytes.for_str o.append) with
    | some d => .ok { o with delete := o.delete.add d, append := [] }
    | none => .error .underflowFail

/-- `Output::delete_words`, with its assertion that the append buffer is
empty. -/
def Output.deleteWordsOp (o : Output) (words : Nat) : Res Output :=
  if o.append = [] then .ok { o with delete_words := o.delete_words + words }
  else .error .assertFail

/-- `Output::append`. -/
def Output.appendOp (o : Output) (t : Str) : Output := { o with append := o.append ++ t }

/-- `Output::clear`. -/
def Output.clearOp (_o : Output) : Output := ⟨0, ⟨0, 0⟩, []⟩

/-- Rust `make_ascii_lowercase`, per char. -/
def lowerAscii (c : Char) : Char :=
  if 'A' ≤ c ∧ c ≤ 'Z' then Char.ofNat (c.toNat + 32) else c

/-- Rust `str::trim`: drop whitespace from both ends. -/
def trimStr (s : Str) : Str :=
  ((s.dropWhile Char.isWhitespace).reverse.dropWhile Char.isWhitespace).reverse

/-- `Steno::append`: push text onto both the pending output and the
in-progress backlog entry. -/
def Steno.appendS (st : Steno) (t : Str) : Steno :=
  { st with output_in_progress := st.output_in_progress.appendOp t,
            backlog_entry_in_progress := st.backlog_entry_in_progress ++ t }

/-- Rust `make_ascii_uppercase` applied to the first char's slice: ASCII
lowercase letters are uppercased, everything else is unchanged. -/
def capitalizeFirst (t : Str) : Str :=
  match t with
  | [] => []
  | c :: cs => (if 'a' ≤ c ∧ c ≤ 'z' then Char.ofNat (c.toNat - 32) else c) :: cs

/-- `Steno::append_capsed`: the in-place uppercase dance appends the same
(possibly capitalized) text to the output and to the in-progress entry. -/
def Steno.append_capsed (st : Steno) (t : Str) (caps : Bool) : Steno :=
  st.appendS (if caps then capitalizeFirst t else t)

/-- `Steno::run_verbatim`. -/
def Steno.run_verbatim (st : Steno) (t : Str) : Steno :=
  let st1 := { st with state := { st.state with glue := false } }
  let st2 := if st1.state.space then st1.appendS [' '] else st1
  let st3 := st2.append_capsed t st2.state.caps
  if st3.state.carry_to_next then
    { st3 with state := { st3.state with carry_to_next := false } }
  else
    { st3 with state := { st3.state with caps := false, space := true } }

/-- `Steno::take_in_progress`. -/
def Steno.take_in_progress (st : Steno) : Res (Option Str × Steno) :=
  if st.backlog_entry_in_progress = [] then .ok (none, st)
  else do
    let o ← st.output_in_progress.deleteOp (CharsOrBytes.for_str st.backlog_entry_in_progress)
    .ok (some st.backlog_entry_in_progress,
      { st with backlog_entry_in_progress := [], output_in_progress := o })

/-- `run_action.rs` `PreviousSource`. -/
inductive PreviousSource
  | inProgress
  | backlogSrc
deriving DecidableEq, Repr

/-- `Steno::remove_previous` (the current `run_action.rs` version: the
backlog case peeks at the last event and removes its text from the pending
output without popping it). -/
def Steno.remove_previous (st : Steno) : Res (Option (Str × PreviousSource) × Steno) := do
  let (t?, st1) ← st.take_in_progress
  match t? with
  | some t => .ok (some (t, .inProgress), st1)
  | none =>
    match st1.backlog.getLast? with
    | some prev => do
      let o ← st1.output_in_progress.deleteOp (CharsOrBytes.for_str prev.text)
      .ok (some (prev.text, .backlogSrc), { st1 with output_in_progress := o })
    | none => .ok (none, st1)

/-- `run_action.rs` `delete_full_entry`: pop the last backlog event,
restore its state snapshot and remove its text from the output, re-appending
the new last event's text when the popped event replaced its predecessor
with a single stroke; an empty backlog records one word-delete instead. -/
def Steno.delete_full_entry (st : Steno) : Res (Option InputEvent × Steno) :=
  match st.backlog.getLast? with
  | none => do
    let o ← st.output_in_progress.deleteWordsOp 1
    .ok (none, { st with output_in_progress := o })
  | some e => do
    let st1 := { st with backlog := st.backlog.dropLast, state := e.state_before }
    let o ← st1.output_in_progress.deleteOp (CharsOrBytes.for_str e.text)
    let st2 := { st1 with output_in_progress := o }
    let st3 :=
      if e.replaced_previous ∧ e.strokes.length = 1 then
        match st2.backlog.getLast? with
        | some prev =>
          { st2 with output_in_progress := st2.output_in_progress.appendOp prev.text }
        | none => st2
      else st2
    .ok (some e, st3)

/-- `undo_stroke`, with the re-run of all but the last stroke delegated to
the `recur` callback (the fuel-decremented `run_keys`). -/
def undoStrokeCb (recur : Steno → Keys → Res Steno) (st : Steno) : Res Steno := do
  let (e?, st1) ← st.delete_full_entry
  match e? with
  | none => .ok st1
  | some e => (e.strokes.dropLast).foldlM (fun s k => recur s k) st1

/-- One arm of the part loop of `run_action`, threading the local
`replaced_previous` accumulator. -/
def runPartCb (recur : Steno → Keys → Res Steno) (wl : Str → Bool)
    (p : EntryPart) (st : Steno) (repl : Bool) : Res (Steno × Bool) :=
  match p with
  | .verbatim t => .ok (st.run_verbatim t, repl)
  | .suffix sfx => do
    let (prev?, st1) ← st.remove_previous
    let st2 := { st1 with state := { st1.state with space := false } }
    match prev? with
    | some (prevText, src) =>
      let repl2 := match src with | .backlogSrc => true | .inProgress => repl
      let withoutRules := (prevText ++ sfx).map lowerAscii
      match
        (if wl (trimStr withoutRules) then none
         else apply_orthography_rules prevText sfx) with
      | some combined => .ok (st2.run_verbatim combined, repl2)
      | none => .ok ((st2.run_verbatim prevText).appendS sfx, repl2)
    | none => .ok (st2.run_verbatim sfx, repl)
  | .specialPunct punct =>
    let st1 := st.appendS punct.as_str
    .ok ({ st1 with state := { st1.state with space := true, caps := punct.is_sentence_end } },
      repl)
  | .setCaps b => .ok ({ st with state := { st.state with caps := b } }, repl)
  | .setSpace b => .ok ({ st with state := { st.state with space := b } }, repl)
  | .carryToNext => .ok ({ st with state := { st.state with carry_to_next := true } }, repl)
  | .glue t =>
    let st1 := if st.state.glue then st.appendS t else st.run_verbatim t
    .ok ({ st1 with state := { st1.state with glue := true } }, repl)
  | .plover c =>
    match c with
    | .backspace =>
      if st.backlog_entry_in_progress = [] then do
        let st1 ← undoStrokeCb recur st
        .ok (st1, repl)
      else .error .assertFail
    | .quit => .error (.quit st)
    | .reset =>
      .ok ({ state := InputState.INITIAL, backlog := [],
             output_in_progress := st.output_in_progress.clearOp,
             backlog_entry_in_progress := [] }, repl)

/-- The part loop of `run_action`. -/
def runPartsCb (recur : Steno → Keys → Res Steno) (wl : Str → Bool) :
    List EntryPart → Steno → Bool → Res (Steno × Bool)
  | [], st, repl => .ok (st, repl)
  | p :: ps, st, repl => do
    let (st1, r1) ← runPartCb recur wl p st repl
    runPartsCb recur wl ps st1 r1

/-- The `delete_before` loop at the head of `run_action`. -/
def popN : Nat → Steno → Res Steno
  | 0, st => .ok st
  | n + 1, st => do
    let (_, st1) ← st.delete_full_entry
    popN n st1

/-- `run_action.rs` `run_action`: assert no entry is in progress, retract
the consumed backlog events, execute the entry's parts followed by any
removed-suffix entry's parts, then push one backlog event when text was
produced. -/
def runActionCb (recur : Steno → Keys → Res Steno) (wl : Str → Bool)
    (st : Steno) (a : Action) : Res Steno :=
  if st.backlog_entry_in_progress = [] then do
    let st1 ← popN a.delete_before st
    let stateBefore := st1.state
    let parts := a.entry ++ (match a.removed_suffix with | some e => e | none => [])
    let (st2, repl) ← runPartsCb recur wl parts st1 false
    if st2.backlog_entry_in_progress = [] then .ok st2
    else
      .ok { st2 with
        backlog := boundedPush BACKLOG_DEPTH st2.backlog
          { strokes := a.strokes, text := st2.backlog_entry_in_progress,
            state_before := stateBefore, replaced_previous := repl },
        backlog_entry_in_progress := [] }
  else .error .assertFail

/-- `Steno::run_keys`, with fuel for the `undo_stroke` recursion. -/
def run_keys (cfg : Cfg) : Nat → Steno → Keys → Res Steno
  | 0, _, _ => .error .fuelOut
  | fuel + 1, st, keys =>
    runActionCb (run_keys cfg fuel) cfg.word_list st (find_action cfg st.backlog keys)

/-- `Steno::flush`. -/
def Steno.flush (st : Steno) : Output × Steno :=
  (st.output_in_progress, { st with output_in_progress := Output.empty })

/-- Apply a flushed edit script to a surface string; meaningful when no
word-deletes are pending (the theorems that use it also establish
`delete_words = 0`).  Deletion counts chars, matching the char field of the
accumulated `CharsOrBytes`. -/
def applySurface (surface : Str) (o : Output) : Str :=
  surface.take (surface.length - o.delete.chars) ++ o.append

/-- Claim C2's wording of the Suffix arm: set space to false first; take
the previous source — the in-progress entry text if non-empty, otherwise
the last backlog event's text, removing the taken text from the pending
output; lowercase the concatenation and consult the word list; apply the
orthography rules only when the word list misses; emit the fusion with
verbatim semantics on success, otherwise the previous text plus the literal
suffix; with no previous source, emit the suffix verbatim. -/
def suffixSpec (wl : Str → Bool) (sfx : Str) (st : Steno) (repl : Bool) : Res (Steno × Bool) :=
  let st0 := { st with state := { st.state with space := false } }
  if st0.backlog_entry_in_progress = [] then
    match st0.backlog.getLast? with
    | some prev => do
      let o ← st0.output_in_progress.deleteOp (CharsOrBytes.for_str prev.text)
      let st1 := { st0 with output_in_progress := o }
      let withoutRules := (prev.text ++ sfx).map lowerAscii
      match
        (if wl (trimStr withoutRules) then none
         else apply_orthography_rules prev.text sfx) with
      | some combined => .ok (st1.run_verbatim combined, true)
      | none => .ok ((st1.run_verbatim prev.text).appendS sfx, true)
    | none => .ok (st0.run_verbatim sfx, repl)
  else do
    let o ← st0.output_in_progress.deleteOp (CharsOrBytes.for_str st0.backlog_entry_in_progress)
    let prevText := st0.backlog_entry_in_progress
    let st1 := { st0 with backlog_entry_in_progress := [], output_in_progress := o }
    let withoutRules := (prevText ++ sfx).map lowerAscii
    match
      (if wl (trimStr withoutRules) then none
       else apply_orthography_rules prevText sfx) with
    | some combined => .ok (st1.run_verbatim combined, repl)
    | none => .ok ((st1.run_verbatim prevText).appendS sfx, repl)


-- ### Concrete lookup configurations for counterexamples and witnesses

def cexKeysV : Keys := Keys.single .P

def cexKeysW : Keys := Keys.single .W

def cexKeysX : Keys := Keys.single .E

def cexKeysY : Keys := Keys.single .U

def cexStar : Keys := Keys.single .Star

/-- A loadable dictionary: a two-byte verbatim, two suffixless letters, a
two-stroke suffix entry, and the star undo. -/
def cexCfgElision : Cfg :=
  { get := fun ss =>
      if ss = [cexKeysV] then some [.verbatim (sOf "é")]
      else if ss = [cexKeysW] then some [.setSpace false, .verbatim (sOf "a")]
      else if ss = [cexKeysX] then some [.setSpace false, .verbatim (sOf "b")]
      else if ss = [cexKeysX, cexKeysY] then some [.suffix (sOf "s")]
      else if ss = [cexStar] then some [.plover .backspace]
      else none,
    max_strokes := 2,
    word_list := fun _ => false }

/-- Feed a chord sequence from the initial engine state. -/
def runChords (cfg : Cfg) (fuel : Nat) (l : List Keys) : Res Steno :=
  l.foldlM (fun st k => run_keys cfg fuel st k) Steno.initial

/-- The digit mask as a fold over a key-char table. -/
def maskOfPairs (l : List (Key × Char)) : Keys :=
  l.foldr (fun kc m => Keys.single kc.1 ||| m) 0


/-- Entry parts that only ever extend the pending output: neither a Plover
command nor a suffix fusion. -/
def simplePart : EntryPart → Bool
  | .verbatim _ => true
  | .specialPunct _ => true
  | .setCaps _ => true
  | .setSpace _ => true
  | .carryToNext => true
  | .glue _ => true
  | .suffix _ => false
  | .plover _ => false

/-- The full part sequence an action executes: its entry followed by the
parts of any removed-suffix entry. -/
def Action.allParts (a : Action) : List EntryPart :=
  a.entry ++ (match a.removed_suffix with | some e => e | none => [])

/-- A dictionary with an entry whose Backspace command follows produced
text, a plain letter, and a Quit chord. -/
def cexCfgAssert : Cfg :=
  { get := fun ss =>
      if ss = [cexKeysW] then some [.verbatim (sOf "a"), .plover .backspace]
      else if ss = [cexKeysX] then some [.verbatim (sOf "b")]
      else if ss = [cexKeysY] then some [.plover .quit]
      else none,
    max_strokes := 1,
    word_list := fun _ => false }

/-- A dictionary whose letter chord emits no text (a bare caps toggle)
alongside the star undo. -/
def cexCfgNoText : Cfg :=
  { get := fun ss =>
      if ss = [cexKeysW] then some [.setCaps false]
      else if ss = [cexStar] then some [.plover .backspace]
      else none,
    max_strokes := 1,
    word_list := fun _ => false }

/-! ## Lemmas and claim theorems -/

-- ### C7 infrastructure

theorem Key.index_inj : ∀ k1 k2 : Key, k1.index = k2.index → k1 = k2 := by decide

theorem Key.otherBefore_bounds :
    ∀ k f : Key, k.otherBefore = some f → f.index ≤ 7 ∧ 14 ≤ k.index := by decide

theorem needsDash_some (ks : Keys) (k : Key) (h : needsDash ks k = true) :
    ∃ f, k.otherBefore = some f := by
  unfold needsDash at h
  cases hob : k.otherBefore with
  | none => rw [hob] at h; exact absurd h (by simp)
  | some f => exact ⟨f, rfl⟩

theorem needsDash_unique (ks : Keys) (k1 k2 : Key)
    (h1 : k1 ∈ ks.members) (h2 : k2 ∈ ks.members)
    (n1 : needsDash ks k1 = true) (n2 : needsDash ks k2 = true) : k1 = k2 := by
  obtain ⟨f1, hf1⟩ := needsDash_some ks k1 n1
  obtain ⟨f2, hf2⟩ := needsDash_some ks k2 n2
  obtain ⟨hb1, hb1'⟩ := Key.otherBefore_bounds k1 f1 hf1
  obtain ⟨hb2, hb2'⟩ := Key.otherBefore_bounds k2 f2 hf2
  rcases Nat.lt_trichotomy k1.index k2.index with hlt | heq | hgt
  · exfalso
    unfold needsDash at n2
    rw [hf2] at n2
    simp only [Bool.not_eq_true'] at n2
    have : ks.members.any (fun j => f2.index ≤ j.index && j.index < k2.index) = true := by
      refine List.any_eq_true.mpr ⟨k1, h1, ?_⟩
      simp only [Bool.and_eq_true, decide_eq_true_eq]
      exact ⟨le_trans hb2 (le_trans (by norm_num) hb1'), hlt⟩
    rw [this] at n2; exact absurd n2 (by simp)
  · exact Key.index_inj _ _ heq
  · exfalso
    unfold needsDash at n1
    rw [hf1] at n1
    simp only [Bool.not_eq_true'] at n1
    have : ks.members.any (fun j => f1.index ≤ j.index && j.index < k1.index) = true := by
      refine List.any_eq_true.mpr ⟨k2, h2, ?_⟩
      simp only [Bool.and_eq_true, decide_eq_true_eq]
      exact ⟨le_trans hb1 (le_trans (by norm_num) hb2'), hgt⟩
    rw [this] at n1; exact absurd n1 (by simp)

theorem flatten_no_dash (p : Key → Bool) (l : List Key) (h : ∀ b ∈ l, p b = false) :
    (l.map (fun k => (if p k then ['-'] else []) ++ [Key.toChar k])).flatten = l.map Key.toChar := by
  induction l with
  | nil => rfl
  | cons a t ih =>
    have ha := h a (List.mem_cons_self a t)
    simp [ha, ih (fun b hb => h b (List.mem_cons_of_mem a hb))]

theorem flatten_insertDash (p : Key → Bool) (l : List Key) (hnd : l.Nodup)
    (huniq : ∀ a ∈ l, ∀ b ∈ l, p a = true → p b = true → a = b) :
    (l.map (fun k => (if p k then ['-'] else []) ++ [Key.toChar k])).flatten = insertDash p l := by
  induction l with
  | nil => rfl
  | cons a t ih =>
    cases hp : p a with
    | true =>
      have hnot : ∀ b ∈ t, p b = false := by
        intro b hb
        by_contra hb'
        have : b = a := by
          have := huniq b (List.mem_cons_of_mem a hb) a (List.mem_cons_self a t)
            (by simpa using hb') hp
          exact this ▸ rfl
        exact (List.nodup_cons.mp hnd).1 (this ▸ hb)
      simp only [insertDash, hp, if_pos rfl, List.map_cons, List.flatten_cons]
      simp [flatten_no_dash p t hnot]
    | false =>
      have ih' := ih (List.nodup_cons.mp hnd).2
        (fun x hx y hy px py => huniq x (List.mem_cons_of_mem a hx) y (List.mem_cons_of_mem a hy) px py)
      simp [insertDash, hp, ih']

theorem members_nodup (ks : Keys) : ks.members.Nodup := by
  have : Key.ALL.Nodup := by decide
  exact this.filter _

/-- C7 amended: for every chord, Display emits one character per member in
steno order with at most one dash, placed before the first member that has
an earlier paired twin with no member in the twin-to-key index range. -/
theorem C7_display_dash (ks : Keys) : keysToStr ks = keysToStrSpec ks := by
  unfold keysToStr keysToStrSpec
  exact flatten_insertDash _ _ (members_nodup ks)
    (fun a ha b hb pa pb => needsDash_unique ks a b ha hb pa pb)

/-- C7 counterexample: chords of only right-hand keys outside the four
letter pairs format without any dash. -/
theorem C7_counterexample :
    keysToStr (Keys.single Key.F) = ['F'] ∧
    keysToStr (Keys.single Key.B ||| Keys.single Key.G) = ['B', 'G'] := by decide

-- ### C8: orthography doubling rules

/-- C8 amended: the doubling family the table actually contains: all five
vowels, consonants g, b, t before suffixes starting with e or i, and n only
before i; the matching rule is the first one that fires. -/
theorem C8_doubling_amended (X rest : Str) (v c h : Char)
    (hv : v = 'a' ∨ v = 'e' ∨ v = 'i' ∨ v = 'o' ∨ v = 'u')
    (hch : ((c = 'g' ∨ c = 'b' ∨ c = 't') ∧ (h = 'e' ∨ h = 'i')) ∨ (c = 'n' ∧ h = 'i')) :
    apply_orthography_rules (X ++ [v, c]) (h :: rest) =
      some (X ++ [v, c, c, h] ++ rest) := by
  rcases hch with ⟨rfl | rfl | rfl, rfl | rfl⟩ | ⟨rfl, rfl⟩ <;>
    rcases hv with rfl | rfl | rfl | rfl | rfl <;>
    simp [apply_orthography_rules, findRule, RULES, stripSuf, stripPre, sOf, List.isPrefixOf]

/-- C8 amended claim, witness instantiation. -/
theorem C8_witness :
    apply_orthography_rules (sOf "at") (sOf "e") = some (sOf "atte") ∧
    apply_orthography_rules (sOf "ut") (sOf "i") = some (sOf "utti") := by
  constructor
  · exact C8_doubling_amended [] [] 'a' 't' 'e' (by simp) (by simp)
  · exact C8_doubling_amended [] [] 'u' 't' 'i' (by simp) (by simp)

/-- C8 counterexample: the claim covers consonant r ("defer" ends with the
vowel e then r, "ed" starts with e, so the claim demands "deferred"), but
the rule table has no r rules and the scan returns nothing. -/
theorem C8_counterexample :
    apply_orthography_rules (sOf "defer") (sOf "ed") = none ∧
    sOf "defer" = sOf "def" ++ ['e', 'r'] ∧ sOf "ed" = 'e' :: sOf "d" := by decide

-- ### C6: Reset command

/-- C6: the entry grammar's command-name parser (modelled from the spec,
because the snapshot of dict/entry.rs predates the Reset variant) accepts
reset, and the Reset arm of run_action restores the initial input state and
clears the backlog, the in-progress entry text, and the pending output. -/
theorem C6_reset_command :
    parsePloverCommand (sOf "reset") = some PloverCommand.reset ∧
    ∀ (recur : Steno → Keys → Res Steno) (wl : Str → Bool) (st : Steno) (repl : Bool),
      runPartCb recur wl (.plover .reset) st repl =
        .ok ({ state := InputState.INITIAL, backlog := [],
               output_in_progress := ⟨0, ⟨0, 0⟩, []⟩,
               backlog_entry_in_progress := [] }, repl) := by
  exact ⟨by decide, fun _ _ _ _ => rfl⟩

-- ### C2: the Suffix arm

/-- Reduction of the Except monad's bind on a success, for rewriting the
do-blocks of the engine. -/
@[simp] theorem Res.bind_ok {α β : Type} (a : α) (f : α → Res β) :
    (Except.ok a : Res α) >>= f = f a := rfl

/-- Reduction of the Except monad's bind on an error. -/
@[simp] theorem Res.bind_err {α β : Type} (e : EngErr) (f : α → Res β) :
    (Except.error e : Res α) >>= f = Except.error e := rfl

/-- C2: the Suffix arm of the action runner behaves exactly as the claim
describes it (word-list check first, orthography only on a miss, verbatim
emission of the fusion or of previous-plus-literal-suffix, plain verbatim
with no previous source); setting space to false commutes with taking the
previous source. -/
theorem C2_suffix_arm (recur : Steno → Keys → Res Steno) (wl : Str → Bool)
    (sfx : Str) (st : Steno) (repl : Bool) :
    runPartCb recur wl (.suffix sfx) st repl = suffixSpec wl sfx st repl := by
  by_cases hip : st.backlog_entry_in_progress = []
  · cases hbl : st.backlog.getLast? with
    | none =>
      simp [runPartCb, suffixSpec, Steno.remove_previous, Steno.take_in_progress, hip, hbl]
    | some prev =>
      cases hdel : st.output_in_progress.deleteOp (CharsOrBytes.for_str prev.text) with
      | error e =>
        simp [runPartCb, suffixSpec, Steno.remove_previous, Steno.take_in_progress, hip, hbl, hdel]
      | ok o =>
        cases hcomb : (if wl (trimStr ((prev.text ++ sfx).map lowerAscii)) then none
            else apply_orthography_rules prev.text sfx) with
        | none =>
          simp [runPartCb, suffixSpec, Steno.remove_previous, Steno.take_in_progress,
            hip, hbl, hdel, hcomb]
        | some combined =>
          simp [runPartCb, suffixSpec, Steno.remove_previous, Steno.take_in_progress,
            hip, hbl, hdel, hcomb]
  · cases hdel : st.output_in_progress.deleteOp
        (CharsOrBytes.for_str st.backlog_entry_in_progress) with
    | error e =>
      simp [runPartCb, suffixSpec, Steno.remove_previous, Steno.take_in_progress, hip, hdel]
    | ok o =>
      cases hcomb : (if wl (trimStr ((st.backlog_entry_in_progress ++ sfx).map lowerAscii))
          then none else apply_orthography_rules st.backlog_entry_in_progress sfx) with
      | none =>
        simp [runPartCb, suffixSpec, Steno.remove_previous, Steno.take_in_progress, hip, hdel, hcomb]
      | some combined =>
        simp [runPartCb, suffixSpec, Steno.remove_previous, Steno.take_in_progress, hip, hdel, hcomb]

-- ### byte-length helpers

theorem utf8Len_append (a b : Str) : utf8Len (a ++ b) = utf8Len a + utf8Len b := by
  simp [utf8Len]

theorem utf8Len_eq_zero (s : Str) : utf8Len s = 0 ↔ s = [] := by
  cases s with
  | nil => simp [utf8Len]
  | cons c cs =>
    simp only [utf8Len, List.map_cons, List.sum_cons]
    constructor
    · intro h
      have := Char.utf8Size_pos c
      omega
    · intro h; exact absurd h (by simp)

theorem takeBytes_append (Y rest : Str) : takeBytes (Y ++ rest) (utf8Len Y) = some Y := by
  induction Y with
  | nil =>
    simp [utf8Len, takeBytes]
  | cons c cs ih =>
    have hpos := Char.utf8Size_pos c
    have hlen : utf8Len (c :: cs) = c.utf8Size + utf8Len cs := by simp [utf8Len]
    rw [hlen]
    obtain ⟨m, hm⟩ : ∃ m, c.utf8Size + utf8Len cs = m + 1 := ⟨c.utf8Size + utf8Len cs - 1, by omega⟩
    rw [hm]
    show takeBytes (c :: (cs ++ rest)) (m + 1) = some (c :: cs)
    rw [takeBytes]
    rw [if_pos (by omega)]
    have : m + 1 - c.utf8Size = utf8Len cs := by omega
    rw [this, ih]
    rfl

-- ### C10: Output::delete safety under alignment

/-- C10 amended: `Output::delete` cannot panic when the deleted amount is
the size of a string that is aligned with the append buffer — either the
buffer ends with that string, or the string extends the whole buffer.  The
engine can reach misaligned calls (see the counterexample), so safety holds
only under this alignment condition. -/
theorem C10_delete_aligned (o : Output) (s : Str)
    (h : (∃ Y, o.append = Y ++ s) ∨ (∃ Z, s = Z ++ o.append)) :
    ∃ o2, o.deleteOp (CharsOrBytes.for_str s) = .ok o2 := by
  rcases h with ⟨Y, hY⟩ | ⟨Z, hZ⟩
  · refine ⟨{ o with append := Y }, ?_⟩
    unfold Output.deleteOp
    rw [if_pos]
    · have : utf8Len o.append - (CharsOrBytes.for_str s).bytes = utf8Len Y := by
        simp [hY, utf8Len_append, CharsOrBytes.for_str]
      rw [this, hY, takeBytes_append]
    · simp [hY, utf8Len_append, CharsOrBytes.for_str]
  · by_cases hle : (CharsOrBytes.for_str s).bytes ≤ utf8Len o.append
    · have hzb : utf8Len Z = 0 := by
        simp only [CharsOrBytes.for_str, hZ, utf8Len_append] at hle
        omega
      have hz : Z = [] := (utf8Len_eq_zero Z).mp hzb
      subst hz
      simp only [List.nil_append] at hZ
      refine ⟨{ o with append := [] }, ?_⟩
      unfold Output.deleteOp
      rw [if_pos hle]
      have : utf8Len o.append - (CharsOrBytes.for_str s).bytes = 0 := by
        simp [hZ, CharsOrBytes.for_str]
      rw [this]
      simp [takeBytes, hZ]
    · refine ⟨?_, ?_⟩
      · exact { o with
          delete := o.delete.add ((CharsOrBytes.for_str s).sub?
            (CharsOrBytes.for_str o.append) |>.getD ⟨0, 0⟩),
          append := [] }
      · unfold Output.deleteOp
        rw [if_neg hle]
        have hsub : (CharsOrBytes.for_str s).sub? (CharsOrBytes.for_str o.append) =
            some ⟨(CharsOrBytes.for_str s).chars - o.append.length,
                  (CharsOrBytes.for_str s).bytes - utf8Len o.append⟩ := by
          unfold CharsOrBytes.sub?
          rw [if_pos]
          · rfl
          · constructor
            · simp [CharsOrBytes.for_str, hZ]
            · simp only [CharsOrBytes.for_str, hZ, utf8Len_append]; omega
        rw [hsub]
        rfl

/-- C10 amended claim, witness instantiation. -/
theorem C10_witness :
    ∃ o2, Output.deleteOp ⟨0, ⟨0, 0⟩, sOf "ab"⟩ (CharsOrBytes.for_str (sOf "b")) = .ok o2 :=
  C10_delete_aligned ⟨0, ⟨0, 0⟩, sOf "ab"⟩ (sOf "b") (Or.inl ⟨sOf "a", by decide⟩)

-- ### C10 counterexample: a reachable char-boundary panic

/-- C10 counterexample: an engine-reachable `Output::delete` call that
panics.  Undoing a multi-stroke suffix fusion does not re-append the
replaced text (`delete_full_entry` requires a single stroke), so the append
buffer loses alignment with the backlog; the final undo then deletes the
one-byte text of a stale event out of a buffer ending in a two-byte char,
and the truncation point falls inside that char even though the requested
byte count is within the buffer. -/
theorem C10_counterexample :
    runChords cexCfgElision 10
      [cexKeysV, cexKeysW, cexKeysX, cexKeysY, cexStar, cexStar, cexStar] =
      .error .truncFail := by rfl

-- ### C9: bounded backlog

theorem boundedPush_le {α : Type} (q : List α) (x : α) (h : q.length ≤ BACKLOG_DEPTH) :
    (boundedPush BACKLOG_DEPTH q x).length ≤ BACKLOG_DEPTH := by
  unfold boundedPush
  by_cases he : q.length = BACKLOG_DEPTH
  · rw [if_pos he]
    have hd : (q.drop 1).length = q.length - 1 := List.length_drop 1 q
    have hB : 0 < BACKLOG_DEPTH := by norm_num [BACKLOG_DEPTH]
    simp only [List.length_append, hd, List.length_cons, List.length_nil]
    omega
  · rw [if_neg he]
    simp only [List.length_append, List.length_cons, List.length_nil]
    omega

theorem delete_full_entry_backlog (st : Steno) (e? : Option InputEvent) (st1 : Steno)
    (h : st.delete_full_entry = .ok (e?, st1)) :
    st1.backlog = st.backlog ∨ st1.backlog = st.backlog.dropLast := by
  unfold Steno.delete_full_entry at h
  cases hbl : st.backlog.getLast? with
  | none =>
    rw [hbl] at h
    cases hdw : st.output_in_progress.deleteWordsOp 1 with
    | error e => simp [hdw] at h
    | ok o =>
      simp [hdw] at h
      left
      rw [← h.2]
  | some e =>
    rw [hbl] at h
    cases hdel : st.output_in_progress.deleteOp (CharsOrBytes.for_str e.text) with
    | error er => simp [hdel] at h
    | ok o =>
      simp [hdel] at h
      right
      rw [← h.2]
      split
      · split <;> rfl
      · rfl

theorem delete_full_entry_len (st : Steno) (e? : Option InputEvent) (st1 : Steno)
    (h : st.delete_full_entry = .ok (e?, st1)) :
    st1.backlog.length ≤ st.backlog.length := by
  rcases delete_full_entry_backlog st e? st1 h with he | he
  · rw [he]
  · rw [he]
    have := List.length_dropLast st.backlog
    omega

theorem popN_bound (n : Nat) : ∀ (st st1 : Steno), popN n st = .ok st1 →
    st.backlog.length ≤ BACKLOG_DEPTH → st1.backlog.length ≤ BACKLOG_DEPTH := by
  induction n with
  | zero =>
    intro st st1 h hb
    simp [popN] at h
    rw [← h]; exact hb
  | succ m ih =>
    intro st st1 h hb
    unfold popN at h
    cases hde : st.delete_full_entry with
    | error e => rw [hde] at h; exact absurd h (by simp)
    | ok p =>
      rw [hde] at h
      simp only [Res.bind_ok] at h
      exact ih p.2 st1 h (le_trans (delete_full_entry_len st p.1 p.2 (by rw [hde])) hb)

theorem run_verbatim_backlog (st : Steno) (t : Str) :
    (st.run_verbatim t).backlog = st.backlog := by
  unfold Steno.run_verbatim Steno.append_capsed Steno.appendS
  dsimp only
  split <;> split <;> rfl

theorem appendS_backlog (st : Steno) (t : Str) : (st.appendS t).backlog = st.backlog := rfl

theorem take_in_progress_backlog (st : Steno) (x : Option Str) (st1 : Steno)
    (h : st.take_in_progress = .ok (x, st1)) : st1.backlog = st.backlog := by
  unfold Steno.take_in_progress at h
  by_cases hip : st.backlog_entry_in_progress = []
  · rw [if_pos hip] at h
    simp only [Except.ok.injEq, Prod.mk.injEq] at h
    rw [← h.2]
  · rw [if_neg hip] at h
    cases hdel : st.output_in_progress.deleteOp
        (CharsOrBytes.for_str st.backlog_entry_in_progress) with
    | error e => rw [hdel] at h; exact absurd h (by simp)
    | ok o =>
      rw [hdel] at h
      simp only [Res.bind_ok, Except.ok.injEq, Prod.mk.injEq] at h
      rw [← h.2]

theorem remove_previous_backlog (st : Steno) (x : Option (Str × PreviousSource)) (st1 : Steno)
    (h : st.remove_previous = .ok (x, st1)) : st1.backlog = st.backlog := by
  unfold Steno.remove_previous at h
  cases htp : st.take_in_progress with
  | error e => rw [htp] at h; exact absurd h (by simp)
  | ok p =>
    obtain ⟨x1, stA⟩ := p
    have hA : stA.backlog = st.backlog := take_in_progress_backlog st x1 stA (by rw [htp])
    rw [htp] at h
    simp only [Res.bind_ok] at h
    cases x1 with
    | some t =>
      simp at h
      rw [← h.2, hA]
    | none =>
      cases hbl : stA.backlog.getLast? with
      | none =>
        simp [hbl] at h
        rw [← h.2, hA]
      | some prev =>
        simp only [hbl] at h
        cases hdel : stA.output_in_progress.deleteOp (CharsOrBytes.for_str prev.text) with
        | error e => simp [hdel] at h
        | ok o =>
          simp [hdel] at h
          rw [← h.2]
          exact hA

/-- Reduction of the Except monad's pure. -/
@[simp] theorem Res.pure_eq {α : Type} (a : α) : (pure a : Res α) = Except.ok a := rfl

theorem deleteOp_no_quit (o : Output) (a : CharsOrBytes) (s : Steno) :
    o.deleteOp a ≠ .error (.quit s) := by
  unfold Output.deleteOp
  intro h
  split at h
  · split at h <;> simp_all
  · split at h <;> simp_all

theorem deleteWordsOp_no_quit (o : Output) (n : Nat) (s : Steno) :
    o.deleteWordsOp n ≠ .error (.quit s) := by
  unfold Output.deleteWordsOp
  intro h
  split at h <;> simp_all

theorem delete_full_entry_no_quit (st : Steno) (s : Steno) :
    st.delete_full_entry ≠ .error (.quit s) := by
  unfold Steno.delete_full_entry
  intro h
  cases hbl : st.backlog.getLast? with
  | none =>
    rw [hbl] at h
    cases hdw : st.output_in_progress.deleteWordsOp 1 with
    | error e =>
      rw [hdw] at h
      simp only [Res.bind_err, Except.error.injEq] at h
      exact deleteWordsOp_no_quit st.output_in_progress 1 s (by rw [hdw, h])
    | ok o => rw [hdw] at h; simp at h
  | some e =>
    rw [hbl] at h
    simp only at h
    cases hdel : st.output_in_progress.deleteOp (CharsOrBytes.for_str e.text) with
    | error er =>
      rw [hdel] at h
      simp only [Res.bind_err, Except.error.injEq] at h
      exact deleteOp_no_quit st.output_in_progress (CharsOrBytes.for_str e.text) s
        (by rw [hdel, h])
    | ok o => rw [hdel] at h; simp at h

theorem popN_no_quit (n : Nat) : ∀ (st s : Steno), popN n st ≠ .error (.quit s) := by
  induction n with
  | zero => intro st s h; simp [popN] at h
  | succ m ih =>
    intro st s h
    unfold popN at h
    cases hde : st.delete_full_entry with
    | error e =>
      rw [hde] at h
      simp only [Res.bind_err, Except.error.injEq] at h
      exact delete_full_entry_no_quit st s (by rw [hde, h])
    | ok p =>
      rw [hde] at h
      simp only [Res.bind_ok] at h
      exact ih p.2 s h

theorem foldlM_keys_bound (f : Steno → Keys → Res Steno)
    (hf : ∀ s k t, (f s k = .ok t ∨ f s k = .error (.quit t)) →
      s.backlog.length ≤ BACKLOG_DEPTH → t.backlog.length ≤ BACKLOG_DEPTH) :
    ∀ (l : List Keys) (s t : Steno),
      (l.foldlM f s = .ok t ∨ l.foldlM f s = .error (.quit t)) →
      s.backlog.length ≤ BACKLOG_DEPTH → t.backlog.length ≤ BACKLOG_DEPTH := by
  intro l
  induction l with
  | nil =>
    intro s t h hb
    rcases h with h | h
    · simp only [List.foldlM_nil, Res.pure_eq, Except.ok.injEq] at h
      rw [← h]; exact hb
    · simp only [List.foldlM_nil, Res.pure_eq] at h
      exact absurd h (by simp)
  | cons a as ih =>
    intro s t h hb
    rw [List.foldlM_cons] at h
    cases hfa : f s a with
    | error e =>
      rw [hfa] at h
      rcases h with h | h
      · simp at h
      · simp only [Res.bind_err, Except.error.injEq, EngErr.quit.injEq] at h
        exact hf s a t (Or.inr (by rw [hfa, h])) hb
    | ok s1 =>
      rw [hfa] at h
      simp only [Res.bind_ok] at h
      exact ih s1 t h (hf s a s1 (Or.inl hfa) hb)

theorem take_in_progress_no_quit (st : Steno) (s : Steno) :
    st.take_in_progress ≠ .error (.quit s) := by
  unfold Steno.take_in_progress
  intro h
  by_cases hip : st.backlog_entry_in_progress = []
  · rw [if_pos hip] at h; exact absurd h (by simp)
  · rw [if_neg hip] at h
    cases hdel : st.output_in_progress.deleteOp
        (CharsOrBytes.for_str st.backlog_entry_in_progress) with
    | error e =>
      rw [hdel] at h
      simp only [Res.bind_err, Except.error.injEq] at h
      exact deleteOp_no_quit st.output_in_progress
        (CharsOrBytes.for_str st.backlog_entry_in_progress) s (by rw [hdel, h])
    | ok o => rw [hdel] at h; exact absurd h (by simp)

theorem remove_previous_no_quit (st : Steno) (s : Steno) :
    st.remove_previous ≠ .error (.quit s) := by
  unfold Steno.remove_previous
  intro h
  cases htp : st.take_in_progress with
  | error e =>
    rw [htp] at h
    simp only [Res.bind_err, Except.error.injEq] at h
    exact take_in_progress_no_quit st s (by rw [htp, h])
  | ok p =>
    rw [htp] at h
    simp only [Res.bind_ok] at h
    cases hp1 : p.1 with
    | some t => rw [hp1] at h; exact absurd h (by simp)
    | none =>
      rw [hp1] at h
      cases hbl : p.2.backlog.getLast? with
      | none => rw [hbl] at h; exact absurd h (by simp)
      | some prev =>
        simp only [hbl] at h
        cases hdel : p.2.output_in_progress.deleteOp (CharsOrBytes.for_str prev.text) with
        | error e =>
          rw [hdel] at h
          simp only [Res.bind_err, Except.error.injEq] at h
          exact deleteOp_no_quit p.2.output_in_progress
            (CharsOrBytes.for_str prev.text) s (by rw [hdel, h])
        | ok o => rw [hdel] at h; exact absurd h (by simp)

theorem undoStrokeCb_bound (recur : Steno → Keys → Res Steno)
    (hrec : ∀ s k t, (recur s k = .ok t ∨ recur s k = .error (.quit t)) →
      s.backlog.length ≤ BACKLOG_DEPTH → t.backlog.length ≤ BACKLOG_DEPTH)
    (st st1 : Steno)
    (h : undoStrokeCb recur st = .ok st1 ∨ undoStrokeCb recur st = .error (.quit st1))
    (hb : st.backlog.length ≤ BACKLOG_DEPTH) : st1.backlog.length ≤ BACKLOG_DEPTH := by
  unfold undoStrokeCb at h
  cases hde : st.delete_full_entry with
  | error e =>
    rw [hde] at h
    rcases h with h | h
    · exact absurd h (by simp)
    · simp only [Res.bind_err, Except.error.injEq] at h
      exact absurd (by rw [hde, h] : st.delete_full_entry = .error (.quit st1))
        (delete_full_entry_no_quit st st1)
  | ok p =>
    rw [hde] at h
    simp only [Res.bind_ok] at h
    have hpb : p.2.backlog.length ≤ BACKLOG_DEPTH :=
      le_trans (delete_full_entry_len st p.1 p.2 (by rw [hde])) hb
    cases hp1 : p.1 with
    | none =>
      rw [hp1] at h
      rcases h with h | h
      · simp only [Except.ok.injEq] at h
        rw [← h]; exact hpb
      · exact absurd h (by simp)
    | some e =>
      rw [hp1] at h
      exact foldlM_keys_bound recur hrec e.strokes.dropLast p.2 st1 h hpb

theorem runPartCb_bound (recur : Steno → Keys → Res Steno) (wl : Str → Bool)
    (hrec : ∀ s k t, (recur s k = .ok t ∨ recur s k = .error (.quit t)) →
      s.backlog.length ≤ BACKLOG_DEPTH → t.backlog.length ≤ BACKLOG_DEPTH)
    (p : EntryPart) (st : Steno) (repl : Bool) (st1 : Steno) (r1 : Bool)
    (h : runPartCb recur wl p st repl = .ok (st1, r1) ∨
      runPartCb recur wl p st repl = .error (.quit st1))
    (hb : st.backlog.length ≤ BACKLOG_DEPTH) : st1.backlog.length ≤ BACKLOG_DEPTH := by
  cases p with
  | verbatim t =>
    rcases h with h | h
    · simp only [runPartCb, Except.ok.injEq, Prod.mk.injEq] at h
      rw [← h.1, run_verbatim_backlog]; exact hb
    · exact absurd h (by simp [runPartCb])
  | suffix sfx =>
    unfold runPartCb at h
    cases hrp : st.remove_previous with
    | error e =>
      rw [hrp] at h
      rcases h with h | h
      · exact absurd h (by simp)
      · simp only [Res.bind_err, Except.error.injEq] at h
        exact absurd (by rw [hrp, h] : st.remove_previous = .error (.quit st1))
          (remove_previous_no_quit st st1)
    | ok q =>
      rw [hrp] at h
      simp only [Res.bind_ok] at h
      have hqb : q.2.backlog = st.backlog := remove_previous_backlog st q.1 q.2 (by rw [hrp])
      cases hq1 : q.1 with
      | none =>
        rw [hq1] at h
        rcases h with h | h
        · simp only [Except.ok.injEq, Prod.mk.injEq] at h
          rw [← h.1, run_verbatim_backlog]
          simp only [hqb]; exact hb
        · exact absurd h (by simp)
      | some pr =>
        obtain ⟨prevText, src⟩ := pr
        rw [hq1] at h
        cases hcomb : (if wl (trimStr ((prevText ++ sfx).map lowerAscii)) then none
            else apply_orthography_rules prevText sfx) with
        | some combined =>
          simp only [hcomb] at h
          rcases h with h | h
          · simp only [Except.ok.injEq, Prod.mk.injEq] at h
            rw [← h.1, run_verbatim_backlog]
            simp only [hqb]; exact hb
          · exact absurd h (by simp)
        | none =>
          simp only [hcomb] at h
          rcases h with h | h
          · simp only [Except.ok.injEq, Prod.mk.injEq] at h
            rw [← h.1, appendS_backlog, run_verbatim_backlog]
            simp only [hqb]; exact hb
          · exact absurd h (by simp)
  | specialPunct punct =>
    rcases h with h | h
    · simp only [runPartCb, Except.ok.injEq, Prod.mk.injEq] at h
      rw [← h.1]; exact hb
    · exact absurd h (by simp [runPartCb])
  | setCaps b =>
    rcases h with h | h
    · simp only [runPartCb, Except.ok.injEq, Prod.mk.injEq] at h
      rw [← h.1]; exact hb
    · exact absurd h (by simp [runPartCb])
  | setSpace b =>
    rcases h with h | h
    · simp only [runPartCb, Except.ok.injEq, Prod.mk.injEq] at h
      rw [← h.1]; exact hb
    · exact absurd h (by simp [runPartCb])
  | carryToNext =>
    rcases h with h | h
    · simp only [runPartCb, Except.ok.injEq, Prod.mk.injEq] at h
      rw [← h.1]; exact hb
    · exact absurd h (by simp [runPartCb])
  | glue t =>
    rcases h with h | h
    · simp only [runPartCb, Except.ok.injEq, Prod.mk.injEq] at h
      rw [← h.1]
      by_cases hg : st.state.glue
      · simp only [hg, if_pos rfl]; exact hb
      · have : (if st.state.glue = true then st.appendS t else st.run_verbatim t).backlog =
            st.backlog := by
          rw [if_neg hg, run_verbatim_backlog]
        rw [this]; exact hb
    · exact absurd h (by simp [runPartCb])
  | plover c =>
    cases c with
    | backspace =>
      unfold runPartCb at h
      by_cases hip : st.backlog_entry_in_progress = []
      · rw [if_pos hip] at h
        cases hu : undoStrokeCb recur st with
        | error e =>
          rw [hu] at h
          rcases h with h | h
          · exact absurd h (by simp)
          · simp only [Res.bind_err, Except.error.injEq] at h
            exact undoStrokeCb_bound recur hrec st st1 (Or.inr (by rw [hu, h])) hb
        | ok s1 =>
          rw [hu] at h
          rcases h with h | h
          · simp only [Res.bind_ok, Except.ok.injEq, Prod.mk.injEq] at h
            rw [← h.1]
            exact undoStrokeCb_bound recur hrec st s1 (Or.inl hu) hb
          · exact absurd h (by simp)
      · rw [if_neg hip] at h
        rcases h with h | h
        · exact absurd h (by simp)
        · exact absurd h (by simp)
    | quit =>
      rcases h with h | h
      · exact absurd h (by simp [runPartCb])
      · simp only [runPartCb, Except.error.injEq, EngErr.quit.injEq] at h
        rw [← h]; exact hb
    | reset =>
      rcases h with h | h
      · simp only [runPartCb, Except.ok.injEq, Prod.mk.injEq] at h
        rw [← h.1]
        simp [BACKLOG_DEPTH]
      · exact absurd h (by simp [runPartCb])

theorem runPartsCb_bound (recur : Steno → Keys → Res Steno) (wl : Str → Bool)
    (hrec : ∀ s k t, (recur s k = .ok t ∨ recur s k = .error (.quit t)) →
      s.backlog.length ≤ BACKLOG_DEPTH → t.backlog.length ≤ BACKLOG_DEPTH) :
    ∀ (ps : List EntryPart) (st : Steno) (repl : Bool) (st1 : Steno) (r1 : Bool),
      (runPartsCb recur wl ps st repl = .ok (st1, r1) ∨
        runPartsCb recur wl ps st repl = .error (.quit st1)) →
      st.backlog.length ≤ BACKLOG_DEPTH → st1.backlog.length ≤ BACKLOG_DEPTH := by
  intro ps
  induction ps with
  | nil =>
    intro st repl st1 r1 h hb
    rcases h with h | h
    · simp only [runPartsCb, Except.ok.injEq, Prod.mk.injEq] at h
      rw [← h.1]; exact hb
    · exact absurd h (by simp [runPartsCb])
  | cons p ps ih =>
    intro st repl st1 r1 h hb
    unfold runPartsCb at h
    cases hp : runPartCb recur wl p st repl with
    | error e =>
      rw [hp] at h
      rcases h with h | h
      · exact absurd h (by simp)
      · simp only [Res.bind_err, Except.error.injEq] at h
        cases e with
        | quit s =>
          have hs : s = st1 := by
            have := h
            simp only [EngErr.quit.injEq] at this
            exact this
          exact runPartCb_bound recur wl hrec p st repl st1 r1
            (Or.inr (by rw [hp, hs])) hb
        | assertFail => exact absurd h (by simp)
        | truncFail => exact absurd h (by simp)
        | underflowFail => exact absurd h (by simp)
        | fuelOut => exact absurd h (by simp)
    | ok q =>
      rw [hp] at h
      simp only [Res.bind_ok] at h
      have hqb : q.1.backlog.length ≤ BACKLOG_DEPTH :=
        runPartCb_bound recur wl hrec p st repl q.1 q.2 (Or.inl (by rw [hp])) hb
      exact ih q.1 q.2 st1 r1 h hqb

theorem runActionCb_bound (recur : Steno → Keys → Res Steno) (wl : Str → Bool)
    (hrec : ∀ s k t, (recur s k = .ok t ∨ recur s k = .error (.quit t)) →
      s.backlog.length ≤ BACKLOG_DEPTH → t.backlog.length ≤ BACKLOG_DEPTH)
    (st : Steno) (a : Action) (st1 : Steno)
    (h : runActionCb recur wl st a = .ok st1 ∨ runActionCb recur wl st a = .error (.quit st1))
    (hb : st.backlog.length ≤ BACKLOG_DEPTH) : st1.backlog.length ≤ BACKLOG_DEPTH := by
  unfold runActionCb at h
  by_cases hip : st.backlog_entry_in_progress = []
  · rw [if_pos hip] at h
    cases hpop : popN a.delete_before st with
    | error e =>
      rw [hpop] at h
      rcases h with h | h
      · exact absurd h (by simp)
      · simp only [Res.bind_err, Except.error.injEq] at h
        exact absurd (by rw [hpop, h] : popN a.delete_before st = .error (.quit st1))
          (popN_no_quit a.delete_before st st1)
    | ok s1 =>
      rw [hpop] at h
      simp only [Res.bind_ok] at h
      have hs1 : s1.backlog.length ≤ BACKLOG_DEPTH := popN_bound a.delete_before st s1 hpop hb
      cases hps : runPartsCb recur wl
          (a.entry ++ (match a.removed_suffix with | some e => e | none => [])) s1 false with
      | error e =>
        rw [hps] at h
        rcases h with h | h
        · exact absurd h (by simp)
        · simp only [Res.bind_err, Except.error.injEq] at h
          cases e with
          | quit s =>
            have hs : s = st1 := by simpa using h
            exact runPartsCb_bound recur wl hrec _ s1 false st1 false
              (Or.inr (by rw [hps, hs])) hs1
          | assertFail => exact absurd h (by simp)
          | truncFail => exact absurd h (by simp)
          | underflowFail => exact absurd h (by simp)
          | fuelOut => exact absurd h (by simp)
      | ok q =>
        rw [hps] at h
        simp only [Res.bind_ok] at h
        have hq : q.1.backlog.length ≤ BACKLOG_DEPTH :=
          runPartsCb_bound recur wl hrec _ s1 false q.1 q.2 (Or.inl (by rw [hps])) hs1
        by_cases hq1 : q.1.backlog_entry_in_progress = []
        · rw [if_pos hq1] at h
          rcases h with h | h
          · simp only [Except.ok.injEq] at h
            rw [← h]; exact hq
          · exact absurd h (by simp)
        · rw [if_neg hq1] at h
          rcases h with h | h
          · simp only [Except.ok.injEq] at h
            rw [← h]
            exact boundedPush_le q.1.backlog _ hq
          · exact absurd h (by simp)
  · rw [if_neg hip] at h
    rcases h with h | h
    · exact absurd h (by simp)
    · exact absurd h (by simp)

theorem run_keys_bound (cfg : Cfg) :
    ∀ (fuel : Nat) (st : Steno) (k : Keys) (st1 : Steno),
      (run_keys cfg fuel st k = .ok st1 ∨ run_keys cfg fuel st k = .error (.quit st1)) →
      st.backlog.length ≤ BACKLOG_DEPTH → st1.backlog.length ≤ BACKLOG_DEPTH := by
  intro fuel
  induction fuel with
  | zero =>
    intro st k st1 h hb
    rcases h with h | h <;> exact absurd h (by simp [run_keys])
  | succ n ih =>
    intro st k st1 h hb
    exact runActionCb_bound (run_keys cfg n) cfg.word_list
      (fun s kk t hh hbb => ih s kk t hh hbb) st _ st1 h hb

/-- C9: after every run_keys call (and flush), the backlog holds at most
BACKLOG_DEPTH events — both for a success and for a propagated Quit — and
the bounded queue's push evicts exactly the oldest element when the queue is
already at its bound, inserting at the back otherwise. -/
theorem C9_backlog_bounded :
    (∀ (cfg : Cfg) (fuel : Nat) (st : Steno) (k : Keys) (st1 : Steno),
      (run_keys cfg fuel st k = .ok st1 ∨ run_keys cfg fuel st k = .error (.quit st1)) →
      st.backlog.length ≤ BACKLOG_DEPTH → st1.backlog.length ≤ BACKLOG_DEPTH) ∧
    (∀ st : Steno, st.flush.2.backlog = st.backlog) ∧
    (∀ (q : List InputEvent) (x : InputEvent), q.length = BACKLOG_DEPTH →
      boundedPush BACKLOG_DEPTH q x = q.drop 1 ++ [x]) ∧
    (∀ (q : List InputEvent) (x : InputEvent), q.length ≠ BACKLOG_DEPTH →
      boundedPush BACKLOG_DEPTH q x = q ++ [x]) := by
  refine ⟨fun cfg fuel st k st1 h hb => run_keys_bound cfg fuel st k st1 h hb,
    fun st => rfl, fun q x hq => ?_, fun q x hq => ?_⟩
  · unfold boundedPush
    rw [if_pos hq]
  · unfold boundedPush
    rw [if_neg hq]

/-- C9 witness instantiation: a single chord run from the initial state. -/
theorem C9_witness :
    ∃ st1, run_keys cexCfgElision 1 Steno.initial cexKeysV = .ok st1 ∧
      st1.backlog.length ≤ BACKLOG_DEPTH := by
  refine ⟨_, rfl, ?_⟩
  exact C9_backlog_bounded.1 cexCfgElision 1 Steno.initial cexKeysV _ (Or.inl rfl)
    (by simp [Steno.initial, BACKLOG_DEPTH])

-- ### C1: the longest-match action finder

theorem lastN_all {α : Type} (l : List α) (n : Nat) (h : l.length ≤ n) : lastN n l = l := by
  unfold lastN
  rw [Nat.sub_eq_zero_of_le h, List.drop_zero]

theorem lastN_length {α : Type} (l : List α) (n : Nat) (h : n ≤ l.length) :
    (lastN n l).length = n := by
  unfold lastN
  rw [List.length_drop]
  omega

theorem lastN_sublist_mem {α : Type} (l : List α) (n : Nat) (x : α) (hx : x ∈ lastN n l) :
    x ∈ l := by
  unfold lastN at hx
  exact List.mem_of_mem_drop hx

theorem lastN_cons_of_ge {α : Type} (l : List α) (n : Nat) (h : n + 1 ≤ l.length) :
    ∃ e, lastN (n + 1) l = e :: lastN n l ∧ e ∈ l := by
  unfold lastN
  have hlt : l.length - (n + 1) < l.length := by omega
  refine ⟨l[l.length - (n + 1)], ?_, List.getElem_mem hlt⟩
  rw [List.drop_eq_getElem_cons hlt]
  have heq : l.length - (n + 1) + 1 = l.length - n := by omega
  rw [heq]

theorem flatten_strokes_len (l : List InputEvent) (h : ∀ e ∈ l, e.strokes ≠ []) :
    l.length ≤ ((l.map (fun e => e.strokes)).flatten).length := by
  induction l with
  | nil => simp
  | cons a t ih =>
    simp only [List.map_cons, List.flatten_cons, List.length_append, List.length_cons]
    have ha : a.strokes ≠ [] := h a (List.mem_cons_self a t)
    have h1 : 1 ≤ a.strokes.length := by
      cases hs : a.strokes with
      | nil => exact absurd hs ha
      | cons x xs => simp
    have := ih (fun e he => h e (List.mem_cons_of_mem a he))
    omega

theorem find_via_dict_eq (cfg : Cfg) (backlog : List InputEvent) (thisKeys : Keys)
    (hget : ∀ ss e, cfg.get ss = some e → ss.length ≤ cfg.max_strokes)
    (hev : ∀ e ∈ backlog, e.strokes ≠ []) :
    find_via_dict cfg backlog thisKeys = find_via_dict_spec cfg backlog thisKeys := by
  unfold find_via_dict find_via_dict_spec
  by_cases hM0 : cfg.max_strokes = 0
  · rw [hM0]
  · by_cases hsm : backlog.length ≤ cfg.max_strokes - 1
    · rw [lastN_all backlog cfg.max_strokes (by omega), lastN_all backlog _ hsm]
    · obtain ⟨M', hM'⟩ : ∃ m, cfg.max_strokes = m + 1 := ⟨cfg.max_strokes - 1, by omega⟩
      have hm1 : cfg.max_strokes - 1 = M' := by omega
      have hlen : M' + 1 ≤ backlog.length := by omega
      obtain ⟨e0, hcons, he0mem⟩ := lastN_cons_of_ge backlog M' hlen
      rw [hM']
      simp only [Nat.add_sub_cancel]
      rw [hcons]
      simp only [List.map_cons, List.flatten_cons, List.append_assoc]
      set rest := lastN M' backlog with hrest
      set X := ((rest.map (fun e => e.strokes)).flatten) ++ [thisKeys] with hX
      have hXlen : M' + 1 ≤ X.length := by
        rw [hX]
        simp only [List.length_append, List.length_cons, List.length_nil]
        have h1 : rest.length = M' := lastN_length backlog M' (by omega)
        have h2 : rest.length ≤ ((rest.map (fun e => e.strokes)).flatten).length :=
          flatten_strokes_len rest (fun e he => hev e (lastN_sublist_mem backlog M' e he))
        omega
      have he0len : 1 ≤ e0.strokes.length := by
        have := hev e0 he0mem
        cases hs : e0.strokes with
        | nil => exact absurd hs this
        | cons x xs => simp
      have htotal : ¬(e0.strokes ++ X).length ≤ cfg.max_strokes := by
        simp only [List.length_append]
        omega
      have hg1 : cfg.get (e0.strokes ++ X) = none := by
        cases hg : cfg.get (e0.strokes ++ X) with
        | none => rfl
        | some e => exact absurd (hget _ e hg) htotal
      have hsplit : ∀ (split : Option (Keys × Entry)),
          trySplitAt cfg.get split (e0.strokes ++ X) = none := by
        intro split
        cases split with
        | none => rfl
        | some p =>
          obtain ⟨ws, se⟩ := p
          unfold trySplitAt
          cases hg : cfg.get ((e0.strokes ++ X).dropLast ++ [ws]) with
          | none => simp [hg]
          | some e =>
            exfalso
            have hne : (e0.strokes ++ X) ≠ [] := by
              intro hc
              have := congrArg List.length hc
              simp only [List.length_append, List.length_nil] at this
              omega
            have hlen2 : ((e0.strokes ++ X).dropLast ++ [ws]).length =
                (e0.strokes ++ X).length := by
              rw [List.length_append, List.length_dropLast, List.length_cons, List.length_nil]
              have : 1 ≤ (e0.strokes ++ X).length := by
                simp only [List.length_append]; omega
              omega
            have := hget _ e hg
            rw [hlen2] at this
            exact htotal this
      conv_lhs => rw [findLoop]
      rw [hg1, hsplit]
      rw [List.drop_left]

/-- C1: with a dictionary whose keys never exceed max_strokes strokes (true
of the real dictionary, whose max_strokes is the maximum key length) and a
backlog of events with at least one stroke each, `find_action` returns
exactly the action described by the claim: the search over the at most
`max_strokes − 1` newest events, longest candidate first, with the
suffix-split retry at each level, the number branch first, and the verbatim
chord-spelling fallback with `delete_before` 0. -/
theorem C1_find_action (cfg : Cfg) (backlog : List InputEvent) (thisKeys : Keys)
    (hget : ∀ ss e, cfg.get ss = some e → ss.length ≤ cfg.max_strokes)
    (hev : ∀ e ∈ backlog, e.strokes ≠ []) :
    find_action cfg backlog thisKeys = find_action_spec cfg backlog thisKeys := by
  unfold find_action find_action_spec
  by_cases hnb : thisKeys.holds .NumberBar
  · simp only [hnb, if_pos rfl]
    cases make_numbers thisKeys with
    | some text => rfl
    | none => exact find_via_dict_eq cfg backlog thisKeys hget hev
  · simp only [hnb]
    exact find_via_dict_eq cfg backlog thisKeys hget hev

theorem cexCfgElision_get_le (ss : List Keys) (e : Entry)
    (h : cexCfgElision.get ss = some e) : ss.length ≤ cexCfgElision.max_strokes := by
  simp only [cexCfgElision] at h ⊢
  split_ifs at h with h1 h2 h3 h4 h5
  · rw [h1]; simp
  · rw [h2]; simp
  · rw [h3]; simp
  · rw [h4]; simp
  · rw [h5]; simp

/-- C1 witness instantiation: a two-event backlog over the counterexample
dictionary, on a chord that resolves through the multi-stroke search. -/
theorem C1_witness :
    find_action cexCfgElision
      [⟨[cexKeysW], sOf "a", InputState.INITIAL, false⟩,
       ⟨[cexKeysX], sOf "b", InputState.INITIAL, false⟩] cexKeysY =
    find_action_spec cexCfgElision
      [⟨[cexKeysW], sOf "a", InputState.INITIAL, false⟩,
       ⟨[cexKeysX], sOf "b", InputState.INITIAL, false⟩] cexKeysY :=
  C1_find_action cexCfgElision _ cexKeysY cexCfgElision_get_le (by decide)

-- ### C4: number chords

theorem Key.index_lt (k : Key) : k.index < 23 := by cases k <;> decide

theorem testBit_flip (m : Keys) (i : Nat) :
    (Keys.flip m).testBit i = (decide (i < 23) && !(m.testBit i)) := by
  unfold Keys.flip Keys.allMask
  rw [Nat.testBit_land, Nat.testBit_xor, Nat.testBit_two_pow_sub_one]
  cases h : m.testBit i <;> cases hi : decide (i < 23) <;> simp

theorem holds_and_flip (x m : Keys) (k : Key) :
    (x &&& Keys.flip m).holds k = (x.holds k && !(m.holds k)) := by
  unfold Keys.holds
  rw [Nat.testBit_land, testBit_flip]
  have := Key.index_lt k
  simp [this]

theorem and_flip_flip (x m1 m2 : Keys) :
    (x &&& Keys.flip m1) &&& Keys.flip m2 = x &&& Keys.flip (m1 ||| m2) := by
  apply Nat.eq_of_testBit_eq
  intro i
  simp only [Nat.testBit_land, testBit_flip, Nat.testBit_lor]
  cases x.testBit i <;> cases m1.testBit i <;> cases m2.testBit i <;>
    cases h : decide (i < 23) <;> simp

theorem and_flip_lt (x m : Keys) : x &&& Keys.flip m < 2 ^ 23 := by
  have h1 : x &&& Keys.flip m ≤ Keys.flip m := Nat.and_le_right
  have h2 : Keys.flip m ≤ Keys.allMask := Nat.and_le_right
  have h3 : Keys.allMask < 2 ^ 23 := by norm_num [Keys.allMask]
  exact lt_of_le_of_lt (le_trans h1 h2) h3

theorem subset_single (x : Keys) (k : Key) :
    (x &&& Keys.single k = Keys.single k) ↔ x.holds k = true := by
  constructor
  · intro h
    have := congrArg (fun y => y.testBit k.index) h
    simp only [Nat.testBit_land, Keys.single, Nat.testBit_two_pow, decide_eq_true_eq] at this
    unfold Keys.holds
    simp at this
    exact this
  · intro h
    apply Nat.eq_of_testBit_eq
    intro i
    simp only [Nat.testBit_land, Keys.single, Nat.testBit_two_pow]
    by_cases hi : k.index = i
    · subst hi
      unfold Keys.holds at h
      simp [h]
    · simp [hi]

theorem subset_pair (x : Keys) (a b : Key) (hab : a.index ≠ b.index) :
    (x &&& (Keys.single a ||| Keys.single b) = Keys.single a ||| Keys.single b) ↔
      (x.holds a = true ∧ x.holds b = true) := by
  constructor
  · intro h
    constructor
    · have := congrArg (fun y => y.testBit a.index) h
      simp only [Nat.testBit_land, Nat.testBit_lor, Keys.single, Nat.testBit_two_pow] at this
      unfold Keys.holds
      simp [hab] at this
      simpa using this
    · have := congrArg (fun y => y.testBit b.index) h
      simp only [Nat.testBit_land, Nat.testBit_lor, Keys.single, Nat.testBit_two_pow] at this
      unfold Keys.holds
      simp [Ne.symm hab] at this
      simpa using this
  · intro ⟨ha, hb⟩
    apply Nat.eq_of_testBit_eq
    intro i
    simp only [Nat.testBit_land, Nat.testBit_lor, Keys.single, Nat.testBit_two_pow]
    by_cases hia : a.index = i
    · subst hia
      unfold Keys.holds at ha
      simp [ha]
    · by_cases hib : b.index = i
      · subst hib
        unfold Keys.holds at hb
        simp [hb, hia]
      · simp [hia, hib]

theorem remove_single_fst (x : Keys) (k : Key) (hx : x < 2 ^ 23) :
    (x.remove (Keys.single k)).1 = x &&& Keys.flip (Keys.single k) := by
  unfold Keys.remove
  by_cases h : x &&& Keys.single k = Keys.single k
  · rw [if_pos h]
  · rw [if_neg h]
    have hk : x.holds k = false := by
      cases hh : x.holds k
      · rfl
      · exact absurd ((subset_single x k).mpr hh) h
    apply Nat.eq_of_testBit_eq
    intro i
    simp only [Nat.testBit_land, testBit_flip, Keys.single, Nat.testBit_two_pow]
    by_cases hik : k.index = i
    · subst hik
      unfold Keys.holds at hk
      simp [hk]
    · by_cases hi : i < 23
      · simp [hik, hi]
      · have : x.testBit i = false := by
          apply Nat.testBit_lt_two_pow
          calc x < 2 ^ 23 := hx
          _ ≤ 2 ^ i := Nat.pow_le_pow_right (by norm_num) (by omega)
        simp [this]

theorem Key.index_ne (k1 k2 : Key) (h : k1 ≠ k2) : k1.index ≠ k2.index :=
  fun hc => h (Key.index_inj k1 k2 hc)

theorem single_holds (k k2 : Key) : (Keys.single k).holds k2 = decide (k.index = k2.index) := by
  unfold Keys.holds Keys.single
  exact Nat.testBit_two_pow

theorem and_allMask_self (x : Keys) (hx : x < 2 ^ 23) : x &&& Keys.flip 0 = x := by
  apply Nat.eq_of_testBit_eq
  intro i
  rw [Nat.testBit_land, testBit_flip]
  by_cases hi : i < 23
  · simp [hi]
  · have : x.testBit i = false := by
      apply Nat.testBit_lt_two_pow
      calc x < 2 ^ 23 := hx
      _ ≤ 2 ^ i := Nat.pow_le_pow_right (by norm_num) (by omega)
    simp [this, hi]

theorem and_flip_lor_absent (x : Keys) (k : Key) (m : Keys) (hx : x < 2 ^ 23)
    (h : x.holds k = false) :
    x &&& Keys.flip (Keys.single k ||| m) = x &&& Keys.flip m := by
  apply Nat.eq_of_testBit_eq
  intro i
  simp only [Nat.testBit_land, testBit_flip, Nat.testBit_lor, Keys.single, Nat.testBit_two_pow]
  by_cases hik : k.index = i
  · subst hik
    unfold Keys.holds at h
    simp [h]
  · simp [hik]

theorem numbersFold_eq (l : List (Key × Char)) :
    l.Pairwise (fun a b => a.1 ≠ b.1) → ∀ (x : Keys), x < 2 ^ 23 → ∀ (acc : Str),
    numbersFold l (x, acc) =
      (x &&& Keys.flip (maskOfPairs l),
       acc ++ l.filterMap (fun kc => if x.holds kc.1 then some kc.2 else none)) := by
  induction l with
  | nil =>
    intro _ x hx acc
    simp only [numbersFold, List.foldl_nil, maskOfPairs, List.foldr_nil, List.filterMap_nil,
      List.append_nil]
    rw [and_allMask_self x hx]
  | cons kc t ih =>
    intro hp x hx acc
    obtain ⟨k, c⟩ := kc
    have hmask : maskOfPairs ((k, c) :: t) = Keys.single k ||| maskOfPairs t := rfl
    have hstep : numbersFold ((k, c) :: t) (x, acc) =
        numbersFold t ((x.remove (Keys.single k)).1,
          if (x.remove (Keys.single k)).2 then acc ++ [c] else acc) := by
      simp [numbersFold, List.foldl_cons]
    rw [hstep, hmask]
    cases hk : x.holds k with
    | true =>
      have hcond : x &&& Keys.single k = Keys.single k := (subset_single x k).mpr hk
      have hrem : x.remove (Keys.single k) = (x &&& Keys.flip (Keys.single k), true) := by
        unfold Keys.remove
        rw [if_pos hcond]
      rw [hrem]
      simp only [if_true]
      rw [ih hp.of_cons (x &&& Keys.flip (Keys.single k)) (and_flip_lt x _) (acc ++ [c])]
      have hfm : t.filterMap
            (fun kc => if (x &&& Keys.flip (Keys.single k)).holds kc.1 then some kc.2 else none) =
          t.filterMap (fun kc => if x.holds kc.1 then some kc.2 else none) := by
        apply List.filterMap_congr
        intro a ha
        have hne : k ≠ a.1 := (List.pairwise_cons.mp hp).1 a ha
        rw [holds_and_flip, single_holds]
        have : decide (k.index = a.1.index) = false := by
          simp [Key.index_ne k a.1 hne]
        rw [this]
        simp
      rw [hfm, and_flip_flip]
      simp only [List.filterMap_cons, hk, if_pos rfl]
      rw [List.append_assoc]
      rfl
    | false =>
      have hcond : ¬(x &&& Keys.single k = Keys.single k) := by
        intro hc
        rw [(subset_single x k).mp hc] at hk
        exact absurd hk (by simp)
      have hrem : x.remove (Keys.single k) = (x, false) := by
        unfold Keys.remove
        rw [if_neg hcond]
      rw [hrem]
      simp only [if_neg (by simp : ¬(false = true))]
      rw [ih hp.of_cons x hx acc]
      rw [and_flip_lor_absent x k (maskOfPairs t) hx hk]
      simp [List.filterMap_cons, hk]

theorem remove_single_eq (x : Keys) (k : Key) (hx : x < 2 ^ 23) :
    x.remove (Keys.single k) = (x &&& Keys.flip (Keys.single k), x.holds k) := by
  unfold Keys.remove
  by_cases h : x &&& Keys.single k = Keys.single k
  · rw [if_pos h, (subset_single x k).mp h]
  · rw [if_neg h]
    have hk : x.holds k = false := by
      cases hh : x.holds k
      · rfl
      · exact absurd ((subset_single x k).mpr hh) h
    rw [hk]
    have h2 : (x.remove (Keys.single k)).1 = x &&& Keys.flip (Keys.single k) :=
      remove_single_fst x k hx
    unfold Keys.remove at h2
    rw [if_neg h] at h2
    simp only at h2
    rw [Prod.mk.injEq]
    exact ⟨h2, rfl⟩

theorem remove_pair_eq (x : Keys) (a b : Key) (hab : a.index ≠ b.index) :
    x.remove (Keys.single a ||| Keys.single b) =
      (if x.holds a && x.holds b then x &&& Keys.flip (Keys.single a ||| Keys.single b) else x,
       x.holds a && x.holds b) := by
  unfold Keys.remove
  by_cases h : x &&& (Keys.single a ||| Keys.single b) = Keys.single a ||| Keys.single b
  · obtain ⟨ha, hb⟩ := (subset_pair x a b hab).mp h
    rw [if_pos h, ha, hb]
    simp
  · have hc : (x.holds a && x.holds b) = false := by
      cases ha : x.holds a
      · simp
      · cases hb : x.holds b
        · simp
        · exact absurd ((subset_pair x a b hab).mpr ⟨ha, hb⟩) h
    rw [if_neg h, hc]
    simp

theorem holds_ite (c : Prop) [Decidable c] (a b : Keys) (k : Key) :
    (if c then a else b).holds k = if c then a.holds k else b.holds k :=
  apply_ite (fun y => Keys.holds y k) c a b

theorem holds_lor (a b : Keys) (k : Key) :
    (a ||| b).holds k = (a.holds k || b.holds k) := by
  unfold Keys.holds
  exact Nat.testBit_lor a b k.index

theorem fst_ite {A B : Type} (c : Prop) [Decidable c] (a b : A × B) :
    (if c then a else b).1 = if c then a.1 else b.1 :=
  apply_ite Prod.fst c a b

theorem snd_ite {A B : Type} (c : Prop) [Decidable c] (a b : A × B) :
    (if c then a else b).2 = if c then a.2 else b.2 :=
  apply_ite Prod.snd c a b

theorem remove_single_cond (x : Keys) (k : Key) :
    x.remove (Keys.single k) =
      (if x.holds k then x &&& Keys.flip (Keys.single k) else x, x.holds k) := by
  unfold Keys.remove
  by_cases h : x &&& Keys.single k = Keys.single k
  · have hk := (subset_single x k).mp h
    rw [if_pos h, hk, if_pos rfl]
  · have hk : x.holds k = false := by
      cases hh : x.holds k
      · rfl
      · exact absurd ((subset_single x k).mpr hh) h
    rw [if_neg h, hk]
    simp

theorem make_numbers_eq_spec (ks : Keys) (hks : ks < 2 ^ 23) :
    make_numbers ks = makeNumbersSpec ks := by
  simp only [make_numbers, makeNumbersSpec]
  rw [remove_single_fst ks .NumberBar hks]
  have hlt1 : ks &&& Keys.flip (Keys.single .NumberBar) < 2 ^ 23 := and_flip_lt _ _
  rw [numbersFold_eq NUMBERS (by decide) _ hlt1 []]
  have hdm : maskOfPairs NUMBERS = digitMask := by decide
  rw [hdm]
  have hdig : NUMBERS.filterMap (fun kc =>
        if (ks &&& Keys.flip (Keys.single .NumberBar)).holds kc.1 then some kc.2 else none) =
      NUMBERS.filterMap (fun kc => if ks.holds kc.1 then some kc.2 else none) := by
    apply List.filterMap_congr
    intro a ha
    rw [holds_and_flip]
    have : (Keys.single Key.NumberBar).holds a.1 = false := by
      fin_cases ha <;> decide
    rw [this]
    simp
  rw [hdig]
  simp only [List.nil_append]
  by_cases hemp :
      (NUMBERS.filterMap (fun kc => if ks.holds kc.1 then some kc.2 else none)).isEmpty
  · simp [hemp]
  · rw [remove_pair_eq _ Key.E Key.U (by decide)]
    rw [remove_pair_eq _ Key.D Key.Z (by decide)]
    rw [remove_single_cond _ Key.D]
    rw [remove_single_cond _ Key.Z]
    rw [remove_single_cond _ Key.K]
    rw [remove_pair_eq _ Key.B Key.G (by decide)]
    have hdgE : digitMask.holds Key.E = false := by decide
    have hdgU : digitMask.holds Key.U = false := by decide
    have hdgD : digitMask.holds Key.D = false := by decide
    have hdgZ : digitMask.holds Key.Z = false := by decide
    have hdgK : digitMask.holds Key.K = false := by decide
    have hdgB : digitMask.holds Key.B = false := by decide
    have hdgG : digitMask.holds Key.G = false := by decide
    simp only [hemp, if_false, Bool.false_eq_true]
    simp [holds_ite, fst_ite, snd_ite, holds_and_flip, holds_lor, single_holds, Key.index,
      hdgE, hdgU, hdgD, hdgZ, hdgK, hdgB, hdgG]
    cases hE : ks.holds Key.E <;> cases hU : ks.holds Key.U <;>
      cases hD : ks.holds Key.D <;> cases hZ : ks.holds Key.Z <;>
        cases hK : ks.holds Key.K <;> cases hB : ks.holds Key.B <;>
          cases hG : ks.holds Key.G <;>
            simp [hE, hU, hD, hZ, hK, hB, hG, fst_ite, snd_ite, holds_ite, holds_and_flip,
              holds_lor, single_holds, Key.index, hdgE, hdgU, hdgD, hdgZ, hdgK, hdgB, hdgG]

/-- C4: number chords: `make_numbers` agrees with the claimed digit-collection
description on every 23-bit chord (fixed digit order, E+U reversal, D+Z dollar
form versus D-duplication and Z-append, K or B+G colon suffix, failure on any
leftover key); with the number bar held, a successful number path yields a
single Glue part when the text is all digits and a Verbatim part otherwise,
while a failed number path falls through to the dictionary lookup; and the
chord `1234567890EUBGDZ` produces the text `$987605432100:00`. -/
theorem C4_number_chords :
    (∀ ks : Keys, ks < 2 ^ 23 → make_numbers ks = makeNumbersSpec ks) ∧
    (∀ (cfg : Cfg) (backlog : List InputEvent) (ks : Keys) (t : Str),
      ks.holds .NumberBar = true → make_numbers ks = some t →
      find_action cfg backlog ks =
        make_simple_action [if t.all isAsciiDigit then .glue t else .verbatim t] ks) ∧
    (∀ (cfg : Cfg) (backlog : List InputEvent) (ks : Keys),
      make_numbers ks = none ∨ ks.holds .NumberBar = false →
      find_action cfg backlog ks = find_via_dict cfg backlog ks) ∧
    (parse_part (sOf "1234567890EUBGDZ") = Except.ok 7322455 ∧
      make_numbers 7322455 = some (sOf "$987605432100:00")) := by
  refine ⟨make_numbers_eq_spec, ?_, ?_, by rfl, by rfl⟩
  · intro cfg backlog ks t hnb hsome
    simp [find_action, hnb, hsome]
  · intro cfg backlog ks h
    rcases h with hnone | hnb
    · cases hnb : ks.holds .NumberBar <;> simp [find_action, hnb, hnone]
    · simp [find_action, hnb]

/-- C4 witness: the claim theorem applied at the concrete chord 7322455
(`1234567890EUBGDZ`) and a concrete lookup configuration. -/
theorem C4_witness :
    make_numbers 7322455 = makeNumbersSpec 7322455 ∧
    find_action cexCfgElision [] 7322455 =
      make_simple_action
        [if (sOf "$987605432100:00").all isAsciiDigit
         then .glue (sOf "$987605432100:00")
         else .verbatim (sOf "$987605432100:00")] 7322455 ∧
    find_action cexCfgElision [] 0 = find_via_dict cexCfgElision [] 0 :=
  ⟨C4_number_chords.1 7322455 (by decide),
   C4_number_chords.2.1 cexCfgElision [] 7322455 (sOf "$987605432100:00")
     (by decide) (by rfl),
   C4_number_chords.2.2.1 cexCfgElision [] 0 (Or.inr (by decide))⟩


-- ### C5: runtime totality

theorem runPartCb_simple_ok (recur : Steno → Keys → Res Steno) (wl : Str → Bool)
    (p : EntryPart) (st : Steno) (repl : Bool) (h : simplePart p = true) :
    ∃ q, runPartCb recur wl p st repl = .ok q := by
  cases p with
  | verbatim t => exact ⟨_, rfl⟩
  | specialPunct pu => exact ⟨_, rfl⟩
  | setCaps b => exact ⟨_, rfl⟩
  | setSpace b => exact ⟨_, rfl⟩
  | carryToNext => exact ⟨_, rfl⟩
  | glue t => exact ⟨_, rfl⟩
  | suffix t => simp [simplePart] at h
  | plover c => simp [simplePart] at h

theorem runPartsCb_simple_ok (recur : Steno → Keys → Res Steno) (wl : Str → Bool) :
    ∀ (ps : List EntryPart) (st : Steno) (repl : Bool),
      (∀ p ∈ ps, simplePart p = true) →
      ∃ q, runPartsCb recur wl ps st repl = .ok q := by
  intro ps
  induction ps with
  | nil => exact fun st repl _ => ⟨(st, repl), rfl⟩
  | cons p t ih =>
    intro st repl hall
    obtain ⟨q1, hq1⟩ := runPartCb_simple_ok recur wl p st repl (hall p (by simp))
    obtain ⟨q2, hq2⟩ := ih q1.1 q1.2 (fun x hx => hall x (by simp [hx]))
    refine ⟨q2, ?_⟩
    simp only [runPartsCb, hq1, Res.bind_ok]
    exact hq2

theorem runPartsCb_quit (recur : Steno → Keys → Res Steno) (wl : Str → Bool) :
    ∀ (pre rest : List EntryPart) (st : Steno) (repl : Bool),
      (∀ p ∈ pre, simplePart p = true) →
      ∃ stq, runPartsCb recur wl (pre ++ .plover .quit :: rest) st repl =
        .error (.quit stq) := by
  intro pre
  induction pre with
  | nil =>
    intro rest st repl _
    exact ⟨st, rfl⟩
  | cons p t ih =>
    intro rest st repl hall
    obtain ⟨q1, hq1⟩ := runPartCb_simple_ok recur wl p st repl (hall p (by simp))
    obtain ⟨stq, hstq⟩ := ih rest q1.1 q1.2 (fun x hx => hall x (by simp [hx]))
    refine ⟨stq, ?_⟩
    simp only [List.cons_append, runPartsCb, hq1, Res.bind_ok]
    exact hstq

/-- C5: the totality claim holds on the Plover-free, suffix-free fragment:
an action that consumes no backlog events and whose parts neither fuse a
suffix nor run a Plover command always succeeds, and when the parts are
such a prefix followed by the Quit command the run returns exactly the
Quit signal.  (The unrestricted claim is refuted by
`C5_counterexample`.) -/
theorem C5_totality_amended :
    (∀ (cfg : Cfg) (fuel : Nat) (st : Steno) (a : Action),
      st.backlog_entry_in_progress = [] → a.delete_before = 0 →
      (∀ p ∈ a.allParts, simplePart p = true) →
      ∃ st2, runActionCb (run_keys cfg fuel) cfg.word_list st a = .ok st2) ∧
    (∀ (cfg : Cfg) (fuel : Nat) (st : Steno) (a : Action)
        (pre rest : List EntryPart),
      st.backlog_entry_in_progress = [] → a.delete_before = 0 →
      a.allParts = pre ++ .plover .quit :: rest →
      (∀ p ∈ pre, simplePart p = true) →
      ∃ stq, runActionCb (run_keys cfg fuel) cfg.word_list st a =
        .error (.quit stq)) := by
  constructor
  · intro cfg fuel st a hip hdel hall
    obtain ⟨q, hq⟩ := runPartsCb_simple_ok (run_keys cfg fuel) cfg.word_list
      a.allParts st false hall
    obtain ⟨st2, repl⟩ := q
    rw [runActionCb, if_pos hip, hdel]
    have hparts : a.entry ++ (match a.removed_suffix with | some e => e | none => []) =
        a.allParts := rfl
    simp only [popN, Res.bind_ok, hparts, hq]
    by_cases h2 : st2.backlog_entry_in_progress = []
    · exact ⟨st2, by rw [if_pos h2]⟩
    · exact ⟨_, by rw [if_neg h2]⟩
  · intro cfg fuel st a pre rest hip hdel hsplit hall
    obtain ⟨stq, hstq⟩ := runPartsCb_quit (run_keys cfg fuel) cfg.word_list
      pre rest st false hall
    refine ⟨stq, ?_⟩
    rw [runActionCb, if_pos hip, hdel]
    have hparts : a.entry ++ (match a.removed_suffix with | some e => e | none => []) =
        a.allParts := rfl
    simp only [popN, Res.bind_ok, hparts, hsplit, hstq, Res.bind_err]

/-- C5 witness: the amended theorem applied to a concrete verbatim-only
action and a concrete Quit action. -/
theorem C5_witness :
    (∃ st2, runActionCb (run_keys cexCfgAssert 5) cexCfgAssert.word_list Steno.initial
        (make_simple_action [.verbatim (sOf "b")] cexKeysX) = .ok st2) ∧
    (∃ stq, runActionCb (run_keys cexCfgAssert 5) cexCfgAssert.word_list Steno.initial
        (make_simple_action [.plover .quit] cexKeysY) = .error (.quit stq)) :=
  ⟨C5_totality_amended.1 cexCfgAssert 5 Steno.initial _ rfl rfl (by decide),
   C5_totality_amended.2 cexCfgAssert 5 Steno.initial _ [] [] rfl rfl rfl
     (by decide)⟩

/-- C5 counterexample: a chord whose entry is a verbatim followed by the
Backspace Plover command makes the in-progress assertion fire — processing
aborts with neither `Ok` nor `Quit`. -/
theorem C5_counterexample :
    run_keys cexCfgAssert 5 Steno.initial cexKeysW = .error .assertFail := by rfl


-- ### C3: backspace as an inverse

theorem Output.appendOp_nil (o : Output) : o.appendOp [] = o := by
  simp [Output.appendOp]

theorem Output.appendOp_assoc (o : Output) (a b : Str) :
    (o.appendOp a).appendOp b = o.appendOp (a ++ b) := by
  simp [Output.appendOp]

theorem run_verbatim_shape (st : Steno) (t : Str) :
    (st.run_verbatim t).backlog = st.backlog ∧
    (st.run_verbatim t).output_in_progress =
      st.output_in_progress.appendOp
        ((if st.state.space then [' '] else []) ++
          (if st.state.caps then capitalizeFirst t else t)) ∧
    (st.run_verbatim t).backlog_entry_in_progress =
      st.backlog_entry_in_progress ++
        ((if st.state.space then [' '] else []) ++
          (if st.state.caps then capitalizeFirst t else t)) := by
  refine ⟨?_, ?_, ?_⟩ <;>
    · unfold Steno.run_verbatim Steno.append_capsed Steno.appendS
      by_cases h1 : st.state.space <;> by_cases h2 : st.state.carry_to_next <;>
        simp [h1, h2, Output.appendOp, List.append_assoc]

theorem runPartCb_simple_shape (recur : Steno → Keys → Res Steno) (wl : Str → Bool)
    (p : EntryPart) (st : Steno) (repl : Bool) (h : simplePart p = true) :
    ∃ Δ st', runPartCb recur wl p st repl = .ok (st', repl) ∧
      st'.backlog = st.backlog ∧
      st'.output_in_progress = st.output_in_progress.appendOp Δ ∧
      st'.backlog_entry_in_progress = st.backlog_entry_in_progress ++ Δ := by
  cases p with
  | verbatim t =>
    obtain ⟨h1, h2, h3⟩ := run_verbatim_shape st t
    exact ⟨_, _, rfl, h1, h2, h3⟩
  | specialPunct pu => exact ⟨pu.as_str, _, rfl, rfl, rfl, rfl⟩
  | setCaps b => exact ⟨[], _, rfl, rfl, (Output.appendOp_nil _).symm, by simp⟩
  | setSpace b => exact ⟨[], _, rfl, rfl, (Output.appendOp_nil _).symm, by simp⟩
  | carryToNext => exact ⟨[], _, rfl, rfl, (Output.appendOp_nil _).symm, by simp⟩
  | glue t =>
    by_cases hg : st.state.glue = true
    · refine ⟨t, _, rfl, ?_, ?_, ?_⟩ <;> simp [runPartCb, hg, Steno.appendS]
    · obtain ⟨h1, h2, h3⟩ := run_verbatim_shape st t
      refine ⟨(if st.state.space then [' '] else []) ++
          (if st.state.caps then capitalizeFirst t else t), _, rfl, ?_, ?_, ?_⟩ <;>
        simp [runPartCb, hg, h1, h2, h3]
  | suffix t => simp [simplePart] at h
  | plover c => simp [simplePart] at h

theorem runPartsCb_simple_shape (recur : Steno → Keys → Res Steno) (wl : Str → Bool) :
    ∀ (ps : List EntryPart) (st : Steno) (repl : Bool),
      (∀ p ∈ ps, simplePart p = true) →
      ∃ Δ st', runPartsCb recur wl ps st repl = .ok (st', repl) ∧
        st'.backlog = st.backlog ∧
        st'.output_in_progress = st.output_in_progress.appendOp Δ ∧
        st'.backlog_entry_in_progress = st.backlog_entry_in_progress ++ Δ := by
  intro ps
  induction ps with
  | nil =>
    intro st repl _
    exact ⟨[], st, rfl, rfl, (Output.appendOp_nil _).symm, by simp⟩
  | cons p t ih =>
    intro st repl hall
    obtain ⟨Δ1, st1, he1, hb1, ho1, hi1⟩ :=
      runPartCb_simple_shape recur wl p st repl (hall p (by simp))
    obtain ⟨Δ2, st2, he2, hb2, ho2, hi2⟩ := ih st1 repl (fun x hx => hall x (by simp [hx]))
    refine ⟨Δ1 ++ Δ2, st2, ?_, ?_, ?_, ?_⟩
    · simp only [runPartsCb, he1, Res.bind_ok]
      exact he2
    · rw [hb2, hb1]
    · rw [ho2, ho1, Output.appendOp_assoc]
    · rw [hi2, hi1, List.append_assoc]

theorem boundedPush_of_lt {α : Type} (q : List α) (x : α) (h : q.length < BACKLOG_DEPTH) :
    boundedPush BACKLOG_DEPTH q x = q ++ [x] := by
  unfold boundedPush
  rw [if_neg (by omega)]

theorem deleteOp_exact (o : Output) (d : Str) :
    (o.appendOp d).deleteOp (CharsOrBytes.for_str d) = .ok o := by
  have hle : utf8Len d ≤ utf8Len (o.append ++ d) := by rw [utf8Len_append]; omega
  have hsub : utf8Len (o.append ++ d) - utf8Len d = utf8Len o.append := by
    rw [utf8Len_append]; omega
  simp [Output.deleteOp, Output.appendOp, CharsOrBytes.for_str, hle, hsub, takeBytes_append]

/-- C3: backspace inverts a single stroke when the stroke's action consumes
no backlog events, carries the chord as its single stroke, runs only parts
that extend the pending output (no Plover command and no suffix fusion, so
in particular no `remove_previous` deletion), and actually produces text
(the backlog grows); the following chord must resolve to a pure Backspace
action.  Undoing then returns the engine to exactly the state before the
stroke: the surface edit, the `InputState`, the backlog and the pending
output are all restored.  (The unrestricted claim is refuted by
`C3_counterexample`: an entry that produces no text pushes no backlog
event, so Backspace deletes a whole word of the surface and restores
nothing.) -/
theorem C3_backspace_inverse_amended
    (cfg : Cfg) (fuel fuel2 : Nat) (st0 st1 : Steno) (c s : Keys) (a : Action)
    (strokes2 : List Keys)
    (hfa : find_action cfg st0.backlog c = a)
    (hip : st0.backlog_entry_in_progress = [])
    (hlen : st0.backlog.length < BACKLOG_DEPTH)
    (hdel : a.delete_before = 0)
    (hstk : a.strokes = [c])
    (hall : ∀ p ∈ a.allParts, simplePart p = true)
    (hrun : run_keys cfg (fuel + 1) st0 c = .ok st1)
    (hne : st1.backlog ≠ st0.backlog)
    (hstar : find_action cfg st1.backlog s =
      { entry := [.plover .backspace], strokes := strokes2, removed_suffix := none,
        delete_before := 0 }) :
    run_keys cfg (fuel2 + 1) st1 s = .ok st0 := by
  obtain ⟨s0state, s0backlog, s0out, s0ip⟩ := st0
  dsimp only at hip hlen hfa hne hrun ⊢
  subst hip
  obtain ⟨Δ, stp, hps, hb, ho, hi⟩ :=
    runPartsCb_simple_shape (run_keys cfg fuel) cfg.word_list a.allParts
      ⟨s0state, s0backlog, s0out, []⟩ false hall
  simp only [run_keys, hfa] at hrun
  rw [runActionCb, if_pos rfl, hdel] at hrun
  have hparts : a.entry ++ (match a.removed_suffix with | some e => e | none => []) =
      a.allParts := rfl
  simp only [popN, Res.bind_ok, hparts, hps] at hrun
  simp only [List.nil_append] at hi
  by_cases hD : Δ = []
  · exfalso
    rw [hD] at hi
    rw [if_pos hi] at hrun
    simp only [Except.ok.injEq] at hrun
    exact hne (hrun ▸ hb)
  · rw [if_neg (by rw [hi]; exact hD)] at hrun
    simp only [Except.ok.injEq] at hrun
    subst hrun
    simp only at hb ho hi
    rw [hb] at hne hstar ⊢
    rw [boundedPush_of_lt _ _ hlen] at hstar ⊢
    simp only [run_keys]
    simp only at hstar
    rw [hstar, runActionCb, if_pos rfl]
    simp only [popN, Res.bind_ok, List.nil_append, runPartsCb, runPartCb,
      undoStrokeCb, Steno.delete_full_entry]
    rw [List.getLast?_concat, List.dropLast_concat]
    simp only [ho, hi, hstk]
    rw [deleteOp_exact]
    simp only [Res.bind_ok, Res.pure_eq]
    simp

/-- C3 witness: the amended theorem applied to a concrete stroke (a letter
entry that appends text) followed by the star undo chord, returning the
engine to the exact initial state. -/
theorem C3_witness :
    run_keys cexCfgElision 5
      { state := { caps := false, space := true, carry_to_next := false, glue := false },
        backlog := [{ strokes := [cexKeysW], text := ['A'],
                      state_before := InputState.INITIAL, replaced_previous := false }],
        output_in_progress := { delete_words := 0, delete := ⟨0, 0⟩, append := ['A'] },
        backlog_entry_in_progress := [] }
      cexStar = .ok Steno.initial :=
  C3_backspace_inverse_amended cexCfgElision 4 4 Steno.initial _ cexKeysW cexStar
    { entry := [.setSpace false, .verbatim (sOf "a")], strokes := [cexKeysW],
      removed_suffix := none, delete_before := 0 }
    [cexStar] (by rfl) rfl (by decide) rfl rfl (by decide) (by rfl) (by decide) (by rfl)

/-- C3 counterexample: a chord whose entry produces no text (a bare caps
toggle) satisfies the claim's hypotheses — no Plover command in the entry,
`delete_before = 0` — yet running it and then the Backspace chord leaves
the `InputState` changed and records a whole-word deletion against the
surface instead of restoring it. -/
theorem C3_counterexample :
    (find_action cexCfgNoText [] cexKeysW).allParts = [.setCaps false] ∧
    (find_action cexCfgNoText [] cexKeysW).delete_before = 0 ∧
    ∃ st1 st2, run_keys cexCfgNoText 5 Steno.initial cexKeysW = .ok st1 ∧
      run_keys cexCfgNoText 5 st1 cexStar = .ok st2 ∧
      st2.state ≠ Steno.initial.state ∧
      st2.output_in_progress.delete_words = 1 ∧
      Steno.initial.output_in_progress.delete_words = 0 := by
  refine ⟨by rfl, by rfl, ?_⟩
  exact ⟨_, _, rfl, rfl, by decide, rfl, rfl⟩


end Sordahe
